import Mathlib

/-!
Shallow embedding of the STL / MSTL decomposition library (stl.hpp, mstl.hpp)
over exact rational arithmetic, together with theorems settling the claims
about its specification.

Modelling conventions:
* `double`/`float` values are modelled as `ℚ`; decimal literals such as
  `0.999` denote the exact rationals they are written as.
* C arrays passed as pointers become `List ℚ`; reads use `List.getD` with
  default `0` (all in-contract reads are in bounds), writes use `List.set`.
* `size_t` loop variables become `ℕ`; 1-based source loops are kept 1-based
  via `List.range'`.
* a function that can `throw std::invalid_argument` returns
  `Except String _` carrying the exact message.
-/

namespace stl

/-- Exact ceiling of a rational, modelling `std::ceil` on an exactly
represented value.  `Int` division truncates toward zero, so for a
non-integral positive `q` it yields the floor and we add 1, while for a
non-integral negative `q` it already yields the ceiling. -/
def ceilq (q : ℚ) : ℤ :=
  if q.den = 1 then q.num
  else q.num / (q.den : ℤ) + (if 0 < q.num then 1 else 0)

/-- `est` (stl.hpp lines 24-88): one weighted local regression value at
position `xs` using neighbours `nleft..nright` (1-based).  The scratch
weight array `w` is functionalised into the weight functions below; the
boolean result plus out-parameter `*ys` becomes `Option ℚ`.
The source guard `sqrt(c) > 0.001 * range` is modelled as
`(0.001 * range)^2 < c`, which is equivalent for `c ≥ 0` and `range ≥ 0`
(always the case in calls made by this library: `c` is a convex
combination of squares with nonnegative robustness weights and
`range = n - 1` with `n ≥ 1`), and is also `False` for `c < 0`, matching
the `NaN`-comparison behaviour of the source. -/
def est (y : List ℚ) (n len : ℕ) (ideg : ℤ) (xs : ℚ) (nleft nright : ℕ)
    (userw : Bool) (rw : List ℚ) : Option ℚ :=
  let range : ℚ := (n : ℚ) - 1
  let h0 : ℚ := max (xs - (nleft : ℚ)) ((nright : ℚ) - xs)
  let h : ℚ := if n < len then h0 + (((len - n) / 2 : ℕ) : ℚ) else h0
  let h9 : ℚ := (999/1000) * h
  let h1 : ℚ := (1/1000) * h
  let js : List ℕ := List.range' nleft (nright + 1 - nleft)
  let w : ℕ → ℚ := fun j =>
    let r : ℚ := |(j : ℚ) - xs|
    if r ≤ h9 then
      (if r ≤ h1 then 1 else (1 - (r / h) ^ 3) ^ 3) *
        (if userw then rw.getD (j - 1) 0 else 1)
    else 0
  let a : ℚ := (js.map w).sum
  if a ≤ 0 then none
  else
    let w1 : ℕ → ℚ := fun j => w j / a
    let w2 : ℕ → ℚ :=
      if 0 < h ∧ 0 < ideg then
        let ac : ℚ := (js.map (fun j => w1 j * (j : ℚ))).sum
        let b : ℚ := xs - ac
        let c : ℚ := (js.map (fun j => w1 j * ((j : ℚ) - ac) ^ 2)).sum
        if ((1/1000) * range) ^ 2 < c then
          fun j => w1 j * ((b / c) * ((j : ℚ) - ac) + 1)
        else w1
      else w1
    some ((js.map (fun j => w2 j * y.getD (j - 1) 0)).sum)

/-- Fitted value at 1-based position `i`, falling back to the raw
observation when `est` reports failure (`ok == false` in the source). -/
def essFit (y : List ℚ) (n len : ℕ) (ideg : ℤ) (userw : Bool) (rw : List ℚ)
    (i nleft nright : ℕ) : ℚ :=
  match est y n len ideg (i : ℚ) nleft nright userw rw with
  | some v => v
  | none => y.getD (i - 1) 0

/-- The evaluation phase of `ess` (stl.hpp lines 100-142): the three-way
case split on `len >= n` / `newnj == 1` / otherwise, producing the final
`(nleft, nright)` pair of the loop together with the output buffer after
the evaluated positions have been written. -/
def essEval (y : List ℚ) (n len : ℕ) (ideg : ℤ) (newnj : ℕ) (userw : Bool)
    (rw : List ℚ) : (ℕ × ℕ) × List ℚ :=
  let ys0 := List.replicate n (0 : ℚ)
  if len ≥ n then
    ((1, n), (List.range' 1 ((n - 1) / newnj + 1) newnj).foldl
      (fun ys i => ys.set (i - 1) (essFit y n len ideg userw rw i 1 n)) ys0)
  else if newnj = 1 then
    let nsh := (len + 1) / 2
    (List.range' 1 n).foldl
      (fun st i =>
        let move := nsh < i ∧ st.1.2 ≠ n
        let nl2 := if move then st.1.1 + 1 else st.1.1
        let nr2 := if move then st.1.2 + 1 else st.1.2
        ((nl2, nr2), st.2.set (i - 1) (essFit y n len ideg userw rw i nl2 nr2)))
      ((1, len), ys0)
  else
    let nsh := (len + 1) / 2
    (List.range' 1 ((n - 1) / newnj + 1) newnj).foldl
      (fun st i =>
        let nl2 := if i < nsh then 1
          else if n - nsh + 1 ≤ i then n - len + 1 else i - nsh + 1
        let nr2 := if i < nsh then len
          else if n - nsh + 1 ≤ i then n else len + i - nsh
        ((nl2, nr2), st.2.set (i - 1) (essFit y n len ideg userw rw i nl2 nr2)))
      ((0, 0), ys0)

/-- The linear-interpolation phase of `ess` (stl.hpp lines 144-150),
filling the skipped positions between consecutive evaluated points. -/
def essInterp (n newnj : ℕ) (ys1 : List ℚ) : List ℚ :=
  (List.range' 1 ((n - newnj - 1) / newnj + 1) newnj).foldl
    (fun ys i =>
      let delta := (ys.getD (i + newnj - 1) 0 - ys.getD (i - 1) 0) / (newnj : ℚ)
      (List.range' (i + 1) (newnj - 1)).foldl
        (fun ys2 j => ys2.set (j - 1) (ys.getD (i - 1) 0 + delta * ((j - i : ℕ) : ℚ)))
        ys)
    ys1

/-- The tail phase of `ess` (stl.hpp lines 151-163): when the stride does
not land on `n`, re-estimate the final point (with the loop's last
`nleft`/`nright`) and interpolate the remaining segment. -/
def essTail (y : List ℚ) (n len : ℕ) (ideg : ℤ) (userw : Bool) (rw : List ℚ)
    (newnj nleft nright : ℕ) (ys2 : List ℚ) : List ℚ :=
  let k := ((n - 1) / newnj) * newnj + 1
  if k = n then ys2
  else
    let ys3 := ys2.set (n - 1) (essFit y n len ideg userw rw n nleft nright)
    if k = n - 1 then ys3
    else
      let delta := (ys3.getD (n - 1) 0 - ys3.getD (k - 1) 0) / ((n - k : ℕ) : ℚ)
      (List.range' (k + 1) (n - 1 - k)).foldl
        (fun ys j => ys.set (j - 1) (ys3.getD (k - 1) 0 + delta * ((j - k : ℕ) : ℚ)))
        ys3

/-- `ess` (stl.hpp lines 90-165): loess smoothing of `y` (length `n`) with
window `len`, degree `ideg` and stride `njump`, producing the smoothed
sequence of length `n`.  The output buffer is modelled as a list of `n`
zeros receiving the same 1-based writes as the source; the `res` scratch
buffer of the source is functionalised away inside `est`. -/
def ess (y : List ℚ) (n len : ℕ) (ideg : ℤ) (njump : ℕ) (userw : Bool)
    (rw : List ℚ) : List ℚ :=
  if n < 2 then (List.replicate n (0 : ℚ)).set 0 (y.getD 0 0)
  else
    let newnj := min njump (n - 1)
    let st := essEval y n len ideg newnj userw rw
    if newnj = 1 then st.2
    else essTail y n len ideg userw rw newnj st.1.1 st.1.2 (essInterp n newnj st.2)

/-- `ma` (stl.hpp lines 167-190): moving average of window `len` over the
first `n` entries of `x`, via the source's incremental running sum (exact
in rational arithmetic).  Well-defined only for `1 ≤ len ≤ n` (otherwise
the `size_t` expression `n - len + 1` of the source wraps; claim C10
establishes that all in-contract calls satisfy `len ≤ n`). -/
def ma (x : List ℚ) (n len : ℕ) : List ℚ :=
  let newn := n - len + 1
  let v0 : ℚ := (x.take len).sum
  ((List.range' 1 (newn - 1)).foldl
    (fun st j =>
      let v := st.2 - x.getD (j - 1) 0 + x.getD (len + j - 1) 0
      (st.1 ++ [v / (len : ℚ)], v))
    ([v0 / (len : ℚ)], v0)).1

/-- `fts` (stl.hpp lines 192-197): the low-pass filter, three cascaded
moving averages of lengths `np`, `np`, `3`. -/
def fts (x : List ℚ) (n np : ℕ) : List ℚ :=
  ma (ma (ma x n np) (n - np + 1) np) (n - 2 * np + 2) 3

/-- The (length, window) arguments of the three `ma` calls performed by
`fts x n np`, in order; used by claim C10. -/
def ftsMaCalls (n np : ℕ) : List (ℕ × ℕ) :=
  [(n, np), (n - np + 1, np), (n - 2 * np + 2, 3)]

/-- `rwts` (stl.hpp lines 199-225): robustness weights from the absolute
residuals `|y i - fit i|`.  The source sorts the residuals inside the
output buffer `rw`; since rational sorting has a unique sorted result,
the (unstable, unspecified-tie-order) `std::sort` is modelled by
`List.insertionSort`. -/
def rwts (y : List ℚ) (n : ℕ) (fit : List ℚ) : List ℚ :=
  let resid := (List.range n).map fun i => |y.getD i 0 - fit.getD i 0|
  let mid1 := (n - 1) / 2
  let mid2 := n / 2
  let sorted := resid.insertionSort (· ≤ ·)
  let cmad : ℚ := 3 * (sorted.getD mid1 0 + sorted.getD mid2 0)
  let c9 := (999/1000) * cmad
  let c1 := (1/1000) * cmad
  (List.range n).map fun i =>
    let r := |y.getD i 0 - fit.getD i 0|
    if r ≤ c1 then 1
    else if r ≤ c9 then (1 - (r / cmad) ^ 2) ^ 2
    else 0

/-- Robustness weighting as worded by the specification (§4.4): absolute
residuals, median as the average of the two middle order statistics,
`cmad = 6 * median`, then the `1` / bisquare / `0` cases.  Used as the
refinement target of claim C6. -/
def rwtsSpec (y : List ℚ) (n : ℕ) (fit : List ℚ) : List ℚ :=
  let resid := (List.range n).map fun i => |y.getD i 0 - fit.getD i 0|
  let mid1 := (n - 1) / 2
  let mid2 := n / 2
  let sorted := resid.insertionSort (· ≤ ·)
  let median : ℚ := (sorted.getD mid1 0 + sorted.getD mid2 0) / 2
  let cmad : ℚ := 6 * median
  (List.range n).map fun i =>
    let r := |y.getD i 0 - fit.getD i 0|
    if r ≤ (1/1000) * cmad then 1
    else if r ≤ (999/1000) * cmad then (1 - (r / cmad) ^ 2) ^ 2
    else 0

/-- `k` of `ss` (stl.hpp line 230): number of elements of the cyclic
sub-series for phase `j` (1-based) of a series of length `n` with period
`np`. -/
def ssK (n np j : ℕ) : ℕ := (n - j) / np + 1

/-- `ss` (stl.hpp lines 227-257): seasonal sub-series smoothing.  For each
phase `j` the cyclic sub-series is gathered, loess-smoothed, extended by
one extrapolated value on each side (`est` at positions `0` and `k+1`,
with fallback to the nearest smoothed value), and scattered back at
stride `np` into the `n + 2 * np` sized output.  The four scratch buffers
of the source are functionalised away. -/
def ss (y : List ℚ) (n np ns : ℕ) (isdeg : ℤ) (nsjump : ℕ) (userw : Bool)
    (rw : List ℚ) : List ℚ :=
  (List.range' 1 np).foldl
    (fun season j =>
      let k := ssK n np j
      let work1 := (List.range k).map fun i => y.getD (i * np + j - 1) 0
      let work3 := if userw then (List.range k).map fun i => rw.getD (i * np + j - 1) 0 else []
      let smoothed := ess work1 k ns isdeg nsjump userw work3
      let head :=
        match est work1 k ns isdeg 0 1 (min ns k) userw work3 with
        | some v => v
        | none => smoothed.getD 0 0
      let tail :=
        match est work1 k ns isdeg ((k : ℚ) + 1) (max 1 (k + 1 - ns)) k userw work3 with
        | some v => v
        | none => smoothed.getD (k - 1) 0
      let work2 := head :: (smoothed ++ [tail])
      (List.range' 1 (k + 2)).foldl
        (fun s m => s.set ((m - 1) * np + j - 1) (work2.getD (m - 1) 0)) season)
    (List.replicate (n + 2 * np) (0 : ℚ))

/-- The body of the inner loop of `onestp` (stl.hpp lines 261-276), acting
on the pair `(season, trend)`.  The parameter `lowrw` models the scratch
buffer `work4` that the source passes as the (ignored, `userw = false`)
weight argument of the low-pass `ess` call on line 268; claim C9 proves
it is irrelevant. -/
def onestpBody (y : List ℚ) (n np ns nt nl : ℕ) (isdeg itdeg ildeg : ℤ)
    (nsjump ntjump nljump : ℕ) (userw : Bool) (rw lowrw : List ℚ)
    (st : List ℚ × List ℚ) : List ℚ × List ℚ :=
  let trend := st.2
  let work1 := (List.range n).map fun i => y.getD i 0 - trend.getD i 0
  let work2 := ss work1 n np ns isdeg nsjump userw rw
  let work3 := fts work2 (n + 2 * np) np
  let lp := ess work3 n nl ildeg nljump false lowrw
  let season := (List.range n).map fun i => work2.getD (np + i) 0 - lp.getD i 0
  let work1b := (List.range n).map fun i => y.getD i 0 - season.getD i 0
  let trend2 := ess work1b n nt itdeg ntjump userw rw
  (season, trend2)

/-- `onestp` (stl.hpp lines 259-277): `ni` inner iterations of the
loop body (the body does not depend on the loop counter, so the `for`
loop is iteration of the body). -/
def onestp (y : List ℚ) (n np ns nt nl : ℕ) (isdeg itdeg ildeg : ℤ)
    (nsjump ntjump nljump ni : ℕ) (userw : Bool) (rw : List ℚ)
    (st : List ℚ × List ℚ) : List ℚ × List ℚ :=
  (onestpBody y n np ns nt nl isdeg itdeg ildeg nsjump ntjump nljump userw rw [])^[ni] st

/-- The `while (true)` outer loop of `stl` (stl.hpp lines 323-334), by
recursion on the number of remaining `onestp` passes (`no + 1` in total):
run a pass; if passes remain, recompute the robustness weights from the
current `trend + season` fit and continue with `userw = true`.
State is `(rw, season, trend)`. -/
def stlOuter (y : List ℚ) (n np ns nt nl : ℕ) (isdeg itdeg ildeg : ℤ)
    (nsjump ntjump nljump ni : ℕ) :
    ℕ → Bool → List ℚ × List ℚ × List ℚ → List ℚ × List ℚ × List ℚ
  | 0, _, st => st
  | c + 1, userw, st =>
    let st2 := onestp y n np ns nt nl isdeg itdeg ildeg nsjump ntjump nljump ni
      userw st.1 (st.2.1, st.2.2)
    if c = 0 then (st.1, st2.1, st2.2)
    else
      let fit := (List.range n).map fun i => st2.2.getD i 0 + st2.1.getD i 0
      stlOuter y n np ns nt nl isdeg itdeg ildeg nsjump ntjump nljump ni
        c true (rwts y n fit, st2.1, st2.2)

/-- The computation performed by `stl` after its validation passes
(stl.hpp lines 314-340): buffers zero-initialised, `no + 1` passes, and
the final overwrite of the weights by `1.0` when `no = 0`. -/
def stlCore (y : List ℚ) (n np ns nt nl : ℕ) (isdeg itdeg ildeg : ℤ)
    (nsjump ntjump nljump ni no : ℕ) : List ℚ × List ℚ × List ℚ :=
  let st := stlOuter y n np ns nt nl isdeg itdeg ildeg nsjump ntjump nljump ni
    (no + 1) false
    (List.replicate n (0 : ℚ), List.replicate n (0 : ℚ), List.replicate n (0 : ℚ))
  (if no = 0 then List.replicate n (1 : ℚ) else st.1, st.2.1, st.2.2)

/-- The validation block of `stl` (stl.hpp lines 281-312), in source
order with the exact messages; `none` means every check passed. -/
def stlCheck (np ns nt nl : ℕ) (isdeg itdeg ildeg : ℤ) : Option String :=
  if ns < 3 then some "seasonal_length must be at least 3"
  else if nt < 3 then some "trend_length must be at least 3"
  else if nl < 3 then some "low_pass_length must be at least 3"
  else if np < 2 then some "period must be at least 2"
  else if isdeg ≠ 0 ∧ isdeg ≠ 1 then some "seasonal_degree must be 0 or 1"
  else if itdeg ≠ 0 ∧ itdeg ≠ 1 then some "trend_degree must be 0 or 1"
  else if ildeg ≠ 0 ∧ ildeg ≠ 1 then some "low_pass_degree must be 0 or 1"
  else if ns % 2 ≠ 1 then some "seasonal_length must be odd"
  else if nt % 2 ≠ 1 then some "trend_length must be odd"
  else if nl % 2 ≠ 1 then some "low_pass_length must be odd"
  else none

/-- `stl` (stl.hpp lines 279-341): parameter validation followed by the
outer loop.  The result triple is `(rw, season, trend)`. -/
def stl (y : List ℚ) (n np ns nt nl : ℕ) (isdeg itdeg ildeg : ℤ)
    (nsjump ntjump nljump ni no : ℕ) : Except String (List ℚ × List ℚ × List ℚ) :=
  match stlCheck np ns nt nl isdeg itdeg ildeg with
  | some e => .error e
  | none => .ok (stlCore y n np ns nt nl isdeg itdeg ildeg nsjump ntjump nljump ni no)

/-- `var` (stl.hpp lines 343-352): sample variance with divisor
`size - 1` (`ℕ` subtraction; the `size_t` wrap of the source for an empty
series is outside every in-contract use, which has `size ≥ 4`). -/
def var (series : List ℚ) : ℚ :=
  let mean := series.sum / (series.length : ℚ)
  ((series.map fun v => (v - mean) ^ 2).sum) / ((series.length - 1 : ℕ) : ℚ)

/-- `strength` (stl.hpp lines 354-362).  When `var sr` is zero the source's
division yields `NaN` (zero numerator) or `+inf` (positive numerator),
`1.0 - that` is `NaN` or `-inf`, and `std::max(0.0, b)` — which returns
`0.0` unless `0.0 < b` — returns `0.0` in both cases, so the model returns
`0` exactly when `var sr = 0`.  This also covers the degenerate sizes where
the source's `var` itself produces `NaN` (size 1) or `0.0` (size 0, the
sum divided by the wrapped `size_t`): `remainder` and `sr` have the same
size, those cases land in the zero-denominator branch, and the source
returns `0.0` through the same `std::max` comparison. -/
def strength (component remainder : List ℚ) : ℚ :=
  let sr := (List.range remainder.length).map fun i =>
    component.getD i 0 + remainder.getD i 0
  if var sr = 0 then 0 else max 0 (1 - var remainder / var sr)

/-- `StlParams` (stl.hpp lines 381-460): optional fields with the source's
default member initialisers. -/
structure StlParams where
  ns : Option ℕ := none
  nt : Option ℕ := none
  nl : Option ℕ := none
  isdeg : ℤ := 0
  itdeg : ℤ := 1
  ildeg : Option ℤ := none
  nsjump : Option ℕ := none
  ntjump : Option ℕ := none
  nljump : Option ℕ := none
  ni : Option ℕ := none
  no : Option ℕ := none
  robust : Bool := false
deriving Repr

/-- `stl::params()` (stl.hpp line 462). -/
def params : StlParams := {}

/-- The `seasonal_length` builder setter (stl.hpp lines 396-399), needed
by `mstl`. -/
def StlParams.seasonal_length (p : StlParams) (w : ℕ) : StlParams :=
  { p with ns := some w }

/-- The `trend_length` builder setter (stl.hpp lines 401-404). -/
def StlParams.trend_length (p : StlParams) (w : ℕ) : StlParams :=
  { p with nt := some w }

/-- The `low_pass_length` builder setter (stl.hpp lines 406-409). -/
def StlParams.low_pass_length (p : StlParams) (w : ℕ) : StlParams :=
  { p with nl := some w }

/-- `StlResult` (stl.hpp lines 364-379). -/
structure StlResult where
  seasonal : List ℚ
  trend : List ℚ
  remainder : List ℚ
  weights : List ℚ
deriving Repr

/-- `stl_fit` (stl.hpp lines 466-518): the length check, derivation of all
unset parameters (in source order), the call to `stl`, and the remainder
computed as `y - seasonal - trend`. -/
def stl_fit (y : List ℚ) (n np : ℕ) (p : StlParams) : Except String StlResult :=
  if n < 2 * np then .error "series has less than two periods"
  else
    let ns := p.ns.getD np
    let isdeg := p.isdeg
    let itdeg := p.itdeg
    let ildeg := p.ildeg.getD itdeg
    let newns0 := max ns 3
    let newns := if newns0 % 2 = 0 then newns0 + 1 else newns0
    let newnp := max np 2
    let nt0 := (ceilq (((3/2 : ℚ) * (newnp : ℚ)) / (1 - (3/2 : ℚ) / (newns : ℚ)))).toNat
    let nt1 := max (p.nt.getD nt0) 3
    let nt := if nt1 % 2 = 0 then nt1 + 1 else nt1
    let nl0 := p.nl.getD newnp
    let nl := if nl0 % 2 = 0 ∧ p.nl = none then nl0 + 1 else nl0
    let ni := p.ni.getD (if p.robust then 1 else 2)
    let no := p.no.getD (if p.robust then 15 else 0)
    let nsjump := p.nsjump.getD (ceilq ((newns : ℚ) / 10)).toNat
    let ntjump := p.ntjump.getD (ceilq ((nt : ℚ) / 10)).toNat
    let nljump := p.nljump.getD (ceilq ((nl : ℚ) / 10)).toNat
    (stl y n newnp newns nt nl isdeg itdeg ildeg nsjump ntjump nljump ni no).map
      fun t => ⟨t.2.1, t.2.2,
        (List.range n).map fun i => y.getD i 0 - t.2.1.getD i 0 - t.2.2.getD i 0, t.1⟩

end stl

/-- Interpretation of the two transcendental floating-point functions used
by the Box-Cox transform (`std::log` and `std::pow` with a non-integral
exponent), which have no exact rational counterpart.  Every theorem about
the MSTL path is proved for an arbitrary interpretation, so nothing
depends on their values. -/
structure RealOps where
  log : ℚ → ℚ
  rpow : ℚ → ℚ → ℚ

namespace mstl

/-- `box_cox` (mstl.hpp lines 75-87); `FLOAT_EPSILON` (`0.0001f`) is
modelled by the exact rational `1/10000`. -/
def box_cox (ops : RealOps) (y : List ℚ) (lambda : ℚ) : List ℚ :=
  if lambda < 1/10000 then y.map ops.log
  else y.map fun v => (ops.rpow v lambda - 1) / lambda

/-- The deseasonalised starting series of `mstl` (mstl.hpp lines
112-113): the Box-Cox transform of the input when `lambda` is set, else
the input itself. -/
def mstlInput (ops : RealOps) (lambda : Option ℚ) (x : List ℚ) : List ℚ :=
  match lambda with
  | some l => box_cox ops x l
  | none => x

/-- `MstlResult` (mstl.hpp lines 24-40). -/
structure MstlResult where
  seasonal : List (List ℚ)
  trend : List ℚ
  remainder : List ℚ
deriving Repr

/-- `MstlParams` (mstl.hpp lines 42-70) with the constructor defaults of
line 50. -/
structure MstlParams where
  iterate : ℕ := 2
  lambda : Option ℚ := none
  swin : Option (List ℕ) := none
  stlParams : stl.StlParams := {}

/-- `mstl::params()` (mstl.hpp line 72). -/
def mstl_params : MstlParams := {}

/-- The running state of the `mstl` loop: the deseasonalised series, the
per-period seasonal components, and the current trend. -/
structure MState where
  deseas : List ℚ
  seasonality : List (List ℚ)
  trend : List ℚ

/-- One iteration of the inner loop of `mstl` (mstl.hpp lines 121-147)
for the pair `pr = (i, idx)` (loop position and sorted index): add the
previous seasonal component back when `j > 0`, fit STL with the seasonal
window chosen from `swin`, the explicit `stl_params` window, or the
derived `7 + 4 * (i + 1)`, then store the seasonal component and subtract
it.  The element-wise `std::transform`s over the range of `deseas` are
modelled by maps over `List.range deseas.length`. -/
def mstlStep (sp : stl.StlParams) (swin : Option (List ℕ)) (seasIds : List ℕ)
    (j : ℕ) (st : MState) (pr : ℕ × ℕ) : Except String MState :=
  let i := pr.1
  let idx := pr.2
  let ds := if 0 < j then
      (List.range st.deseas.length).map fun t =>
        (st.seasonality.getD idx []).getD t 0 + st.deseas.getD t 0
    else st.deseas
  let fitp : stl.StlParams :=
    match swin with
    | some sw => sp.seasonal_length (sw.getD idx 0)
    | none => if sp.ns.isSome then sp else sp.seasonal_length (7 + 4 * (i + 1))
  (stl.stl_fit ds ds.length (seasIds.getD idx 0) fitp).map
    fun fit => ⟨(List.range ds.length).map fun t => ds.getD t 0 - fit.seasonal.getD t 0,
      st.seasonality.set idx fit.seasonal, fit.trend⟩

/-- The inner `for (i ...)` loop of round `j` of `mstl`, over the list of
`(position, sorted index)` pairs, propagating the first error. -/
def mstlSteps (sp : stl.StlParams) (swin : Option (List ℕ)) (seasIds : List ℕ)
    (j : ℕ) : List (ℕ × ℕ) → MState → Except String MState
  | [], st => .ok st
  | pr :: rest, st =>
    match mstlStep sp swin seasIds j st pr with
    | .error e => .error e
    | .ok st2 => mstlSteps sp swin seasIds j rest st2

/-- The outer `for (j ...)` loop of `mstl`: `r` remaining rounds,
current round index `j`. -/
def mstlRounds (sp : stl.StlParams) (swin : Option (List ℕ)) (seasIds : List ℕ)
    (prs : List (ℕ × ℕ)) : ℕ → ℕ → MState → Except String MState
  | _, 0, st => .ok st
  | j, r + 1, st =>
    match mstlSteps sp swin seasIds j prs st with
    | .error e => .error e
    | .ok st2 => mstlRounds sp swin seasIds prs (j + 1) r st2

/-- The index list of `mstl` (mstl.hpp lines 94-101): `0, …, m-1` sorted
by ascending period.  `std::sort` leaves the order of tied elements
unspecified; the stable `List.insertionSort` realises one admissible
execution. -/
def sortedIndices (seasIds : List ℕ) : List ℕ :=
  (List.range seasIds.length).insertionSort
    (fun a b => seasIds.getD a 0 ≤ seasIds.getD b 0)

/-- `mstl::_::mstl` (mstl.hpp lines 88-156). -/
def mstl (ops : RealOps) (x : List ℚ) (seasIds : List ℕ) (iterate : ℕ)
    (lambda : Option ℚ) (swin : Option (List ℕ)) (sp : stl.StlParams) :
    Except String MstlResult :=
  let indices := sortedIndices seasIds
  let iter := if seasIds.length = 1 then 1 else iterate
  let deseas := mstlInput ops lambda x
  if seasIds.isEmpty then .error "periods must not be empty"
  else
    match mstlRounds sp swin seasIds indices.enum 0 iter
        ⟨deseas, List.replicate seasIds.length [], []⟩ with
    | .error e => .error e
    | .ok st =>
      .ok ⟨st.seasonality, st.trend,
        (List.range st.deseas.length).map fun t => st.deseas.getD t 0 - st.trend.getD t 0⟩

/-- The per-period validation loop of `MstlParams::fit` (mstl.hpp lines
163-170), returning the first error message. -/
def checkPeriods (n : ℕ) : List ℕ → Option String
  | [] => none
  | q :: rest =>
    if q < 2 then some "each period must be at least 2"
    else if n < q * 2 then some "series is shorter than twice the period"
    else checkPeriods n rest

/-- `MstlParams::fit` (mstl.hpp lines 160-185): period checks, lambda
range check, seasonal-window length check, then the call to `mstl`. -/
def MstlParams.fit (ops : RealOps) (p : MstlParams) (series : List ℚ)
    (periods : List ℕ) : Except String MstlResult :=
  match checkPeriods series.length periods with
  | some e => .error e
  | none =>
    if p.lambda.any (fun l => decide (1 < l) || decide (l < 0)) then
      .error "lambda must be between 0 and 1"
    else if p.swin.any (fun sw => sw.length != periods.length) then
      .error "seasonal_lengths must have the same length as periods"
    else mstl ops series periods p.iterate p.lambda p.swin p.stlParams

end mstl

namespace stl

/-- One outer pass as described by the specification (§4.7): run `onestp`
(`ni` inner iterations) with the state's current weights and the given
`userw` flag, keeping the weights. -/
def stlPassWith (y : List ℚ) (n np ns nt nl : ℕ) (isdeg itdeg ildeg : ℤ)
    (nsjump ntjump nljump ni : ℕ) (userw : Bool)
    (st : List ℚ × List ℚ × List ℚ) : List ℚ × List ℚ × List ℚ :=
  (st.1, onestp y n np ns nt nl isdeg itdeg ildeg nsjump ntjump nljump ni
    userw st.1 (st.2.1, st.2.2))

/-- One robust outer iteration as described by the specification (§4.7):
recompute the robustness weights from the current `trend + season` fit
with `rwts`, then run `onestp` with them (`userw = true`). -/
def stlRobustPass (y : List ℚ) (n np ns nt nl : ℕ) (isdeg itdeg ildeg : ℤ)
    (nsjump ntjump nljump ni : ℕ)
    (st : List ℚ × List ℚ × List ℚ) : List ℚ × List ℚ × List ℚ :=
  let fit := (List.range n).map fun i => st.2.2.getD i 0 + st.2.1.getD i 0
  let rw2 := rwts y n fit
  (rw2, onestp y n np ns nt nl isdeg itdeg ildeg nsjump ntjump nljump ni
    true rw2 (st.2.1, st.2.2))

end stl

namespace mstl

/-- Simulation relation between a real `mstl` loop state (seasonal
components stored at the sorted index positions) and the canonical state
(components stored by rank). -/
def SimRel (m : ℕ) (indices : List ℕ) (st cst : MState) : Prop :=
  st.deseas = cst.deseas ∧ st.trend = cst.trend ∧
  st.seasonality.length = m ∧ cst.seasonality.length = m ∧
  ∀ t, t < m → st.seasonality.getD (indices.getD t 0) [] = cst.seasonality.getD t []

end mstl

/-- A trivial interpretation of the transcendental operations of the
Box-Cox transform, used to instantiate MSTL theorems at concrete inputs
(no theorem depends on the interpretation). -/
def opsZero : RealOps := ⟨fun _ => 0, fun _ _ => 0⟩

section Helpers

/-- A property preserved by every step of a `foldl` is preserved by the
whole fold. -/
theorem foldl_pres {α β : Type} (P : β → Prop) (f : β → α → β)
    (l : List α) (s : β) (h : ∀ s a, P s → P (f s a)) (hs : P s) :
    P (l.foldl f s) := by
  induction l generalizing s with
  | nil => exact hs
  | cons a t ih => exact ih (f s a) (h s a hs)

theorem isOk_iff_exists {e : Except String α} :
    e.isOk = true ↔ ∃ r, e = .ok r := by
  cases e <;> simp [Except.isOk, Except.toBool]

theorem isSome_ite {c : Prop} [Decidable c] {s : String} {o : Option String}
    (ho : o.isSome = true) : (if c then some s else o).isSome = true := by
  split
  · rfl
  · exact ho

theorem isSome_ite_pos {c : Prop} [Decidable c] {s : String} {o : Option String}
    (hc : c) : (if c then some s else o).isSome = true := by
  rw [if_pos hc]
  rfl

theorem isSome_iff_exists {o : Option String} : o.isSome = true ↔ ∃ e, o = some e := by
  cases o <;> simp

theorem map_error_of {α β : Type} {s : Except String α} (g : α → β)
    (h : ∃ e, s = .error e) : ∃ e, s.map g = .error e := by
  obtain ⟨e, rfl⟩ := h
  exact ⟨e, rfl⟩

theorem map_eq_ok {α β : Type} {s : Except String α} {g : α → β} {r : β}
    (h : s.map g = .ok r) : ∃ t, s = .ok t ∧ r = g t := by
  cases s with
  | error e => exact Except.noConfusion h
  | ok t =>
    refine ⟨t, rfl, ?_⟩
    injection h with h
    exact h.symm

theorem isOk_map {α β : Type} (g : α → β) (s : Except String α) :
    (s.map g).isOk = s.isOk := by
  cases s <;> rfl

end Helpers


namespace stl

theorem essEval_snd_length (y : List ℚ) (n len : ℕ) (ideg : ℤ) (newnj : ℕ)
    (userw : Bool) (rw : List ℚ) :
    ((essEval y n len ideg newnj userw rw).2).length = n := by
  unfold essEval
  split
  · exact foldl_pres (fun l : List ℚ => l.length = n) _ _ _
      (fun s a hs => by simpa using hs) (by simp)
  · split
    · exact foldl_pres (fun st : (ℕ × ℕ) × List ℚ => st.2.length = n) _ _ _
        (fun s a hs => by simpa using hs) (by simp)
    · exact foldl_pres (fun st : (ℕ × ℕ) × List ℚ => st.2.length = n) _ _ _
        (fun s a hs => by simpa using hs) (by simp)

theorem essInterp_length (n newnj : ℕ) (ys1 : List ℚ) :
    (essInterp n newnj ys1).length = ys1.length := by
  unfold essInterp
  refine foldl_pres (fun l : List ℚ => l.length = ys1.length) _ _ _ ?_ rfl
  intro s a hs
  refine foldl_pres (fun l : List ℚ => l.length = ys1.length) _ _ _ ?_ hs
  intro s2 b hs2
  simpa using hs2

theorem essTail_length (y : List ℚ) (n len : ℕ) (ideg : ℤ) (userw : Bool)
    (rw : List ℚ) (newnj nleft nright : ℕ) (ys2 : List ℚ) :
    (essTail y n len ideg userw rw newnj nleft nright ys2).length = ys2.length := by
  unfold essTail
  dsimp only
  split
  · rfl
  · split
    · simp
    · refine foldl_pres (fun l : List ℚ => l.length = ys2.length) _ _ _ ?_ (by simp)
      intro s a hs
      simpa using hs

theorem ess_length (y : List ℚ) (n len : ℕ) (ideg : ℤ) (njump : ℕ)
    (userw : Bool) (rw : List ℚ) : (ess y n len ideg njump userw rw).length = n := by
  unfold ess
  split
  · simp
  · dsimp only
    split
    · exact essEval_snd_length ..
    · rw [essTail_length, essInterp_length, essEval_snd_length]

end stl

namespace stl

theorem est_false (y : List ℚ) (n len : ℕ) (ideg : ℤ) (xs : ℚ)
    (nleft nright : ℕ) (rw : List ℚ) :
    est y n len ideg xs nleft nright false rw =
      est y n len ideg xs nleft nright false [] := by
  simp [est]

theorem essFit_false (y : List ℚ) (n len : ℕ) (ideg : ℤ) (rw : List ℚ)
    (i nleft nright : ℕ) :
    essFit y n len ideg false rw i nleft nright =
      essFit y n len ideg false [] i nleft nright := by
  unfold essFit
  rw [est_false]

theorem essEval_false (y : List ℚ) (n len : ℕ) (ideg : ℤ) (newnj : ℕ)
    (rw : List ℚ) :
    essEval y n len ideg newnj false rw = essEval y n len ideg newnj false [] := by
  unfold essEval
  simp only [essFit_false]

theorem essTail_false (y : List ℚ) (n len : ℕ) (ideg : ℤ) (rw : List ℚ)
    (newnj nleft nright : ℕ) (ys2 : List ℚ) :
    essTail y n len ideg false rw newnj nleft nright ys2 =
      essTail y n len ideg false [] newnj nleft nright ys2 := by
  unfold essTail
  simp only [essFit_false]

theorem ess_false (y : List ℚ) (n len : ℕ) (ideg : ℤ) (njump : ℕ)
    (rw rw2 : List ℚ) :
    ess y n len ideg njump false rw = ess y n len ideg njump false rw2 := by
  unfold ess
  simp only [essEval_false, essTail_false]

theorem rwts_length (y : List ℚ) (n : ℕ) (fit : List ℚ) :
    (rwts y n fit).length = n := by
  simp [rwts]

theorem onestpBody_lengths (y : List ℚ) (n np ns nt nl : ℕ)
    (isdeg itdeg ildeg : ℤ) (nsjump ntjump nljump : ℕ) (userw : Bool)
    (rw lowrw : List ℚ) (st : List ℚ × List ℚ) :
    ((onestpBody y n np ns nt nl isdeg itdeg ildeg nsjump ntjump nljump
        userw rw lowrw st).1).length = n ∧
    ((onestpBody y n np ns nt nl isdeg itdeg ildeg nsjump ntjump nljump
        userw rw lowrw st).2).length = n := by
  unfold onestpBody
  exact ⟨by simp, ess_length ..⟩

theorem onestp_lengths (y : List ℚ) (n np ns nt nl : ℕ)
    (isdeg itdeg ildeg : ℤ) (nsjump ntjump nljump ni : ℕ) (userw : Bool)
    (rw : List ℚ) (st : List ℚ × List ℚ) (h1 : st.1.length = n)
    (h2 : st.2.length = n) :
    ((onestp y n np ns nt nl isdeg itdeg ildeg nsjump ntjump nljump ni
        userw rw st).1).length = n ∧
    ((onestp y n np ns nt nl isdeg itdeg ildeg nsjump ntjump nljump ni
        userw rw st).2).length = n := by
  unfold onestp
  induction ni generalizing st with
  | zero => exact ⟨h1, h2⟩
  | succ m ih =>
    rw [Function.iterate_succ_apply]
    exact ih _ (onestpBody_lengths ..).1 (onestpBody_lengths ..).2

theorem stlOuter_lengths (y : List ℚ) (n np ns nt nl : ℕ)
    (isdeg itdeg ildeg : ℤ) (nsjump ntjump nljump ni : ℕ) (c : ℕ)
    (userw : Bool) (st : List ℚ × List ℚ × List ℚ)
    (h0 : st.1.length = n) (h1 : st.2.1.length = n) (h2 : st.2.2.length = n) :
    ((stlOuter y n np ns nt nl isdeg itdeg ildeg nsjump ntjump nljump ni
        c userw st).1).length = n ∧
    ((stlOuter y n np ns nt nl isdeg itdeg ildeg nsjump ntjump nljump ni
        c userw st).2.1).length = n ∧
    ((stlOuter y n np ns nt nl isdeg itdeg ildeg nsjump ntjump nljump ni
        c userw st).2.2).length = n := by
  induction c generalizing userw st with
  | zero => exact ⟨h0, h1, h2⟩
  | succ m ih =>
    rw [stlOuter]
    dsimp only
    split
    · exact ⟨h0, (onestp_lengths y n np ns nt nl isdeg itdeg ildeg nsjump ntjump
        nljump ni userw st.1 (st.2.1, st.2.2) h1 h2).1,
        (onestp_lengths y n np ns nt nl isdeg itdeg ildeg nsjump ntjump
        nljump ni userw st.1 (st.2.1, st.2.2) h1 h2).2⟩
    · exact ih true _ (rwts_length ..)
        (onestp_lengths y n np ns nt nl isdeg itdeg ildeg nsjump ntjump
          nljump ni userw st.1 (st.2.1, st.2.2) h1 h2).1
        (onestp_lengths y n np ns nt nl isdeg itdeg ildeg nsjump ntjump
          nljump ni userw st.1 (st.2.1, st.2.2) h1 h2).2

theorem stlCore_lengths (y : List ℚ) (n np ns nt nl : ℕ)
    (isdeg itdeg ildeg : ℤ) (nsjump ntjump nljump ni no : ℕ) :
    ((stlCore y n np ns nt nl isdeg itdeg ildeg nsjump ntjump nljump ni no).1).length = n ∧
    ((stlCore y n np ns nt nl isdeg itdeg ildeg nsjump ntjump nljump ni no).2.1).length = n ∧
    ((stlCore y n np ns nt nl isdeg itdeg ildeg nsjump ntjump nljump ni no).2.2).length = n := by
  unfold stlCore
  have h := stlOuter_lengths y n np ns nt nl isdeg itdeg ildeg nsjump ntjump
    nljump ni (no + 1) false
    (List.replicate n (0 : ℚ), List.replicate n (0 : ℚ), List.replicate n (0 : ℚ))
    (by simp) (by simp) (by simp)
  refine ⟨?_, h.2.1, h.2.2⟩
  dsimp only
  split
  · simp
  · exact h.1

end stl

namespace stl

theorem stlCheck_none (np ns nt nl : ℕ) (isdeg itdeg ildeg : ℤ)
    (h1 : 3 ≤ ns) (h2 : 3 ≤ nt) (h3 : 3 ≤ nl) (h4 : 2 ≤ np)
    (h5 : isdeg = 0 ∨ isdeg = 1) (h6 : itdeg = 0 ∨ itdeg = 1)
    (h7 : ildeg = 0 ∨ ildeg = 1)
    (h8 : ns % 2 = 1) (h9 : nt % 2 = 1) (h10 : nl % 2 = 1) :
    stlCheck np ns nt nl isdeg itdeg ildeg = none := by
  unfold stlCheck
  rw [if_neg (by omega), if_neg (by omega), if_neg (by omega), if_neg (by omega),
    if_neg (by rcases h5 with h | h <;> simp [h]),
    if_neg (by rcases h6 with h | h <;> simp [h]),
    if_neg (by rcases h7 with h | h <;> simp [h]),
    if_neg (by omega), if_neg (by omega), if_neg (by omega)]

theorem stl_ok (y : List ℚ) (n np ns nt nl : ℕ) (isdeg itdeg ildeg : ℤ)
    (nsjump ntjump nljump ni no : ℕ)
    (h1 : 3 ≤ ns) (h2 : 3 ≤ nt) (h3 : 3 ≤ nl) (h4 : 2 ≤ np)
    (h5 : isdeg = 0 ∨ isdeg = 1) (h6 : itdeg = 0 ∨ itdeg = 1)
    (h7 : ildeg = 0 ∨ ildeg = 1)
    (h8 : ns % 2 = 1) (h9 : nt % 2 = 1) (h10 : nl % 2 = 1) :
    stl y n np ns nt nl isdeg itdeg ildeg nsjump ntjump nljump ni no =
      .ok (stlCore y n np ns nt nl isdeg itdeg ildeg nsjump ntjump nljump ni no) := by
  unfold stl
  rw [stlCheck_none np ns nt nl isdeg itdeg ildeg h1 h2 h3 h4 h5 h6 h7 h8 h9 h10]

theorem stl_eq_ok {y : List ℚ} {n np ns nt nl : ℕ} {isdeg itdeg ildeg : ℤ}
    {nsjump ntjump nljump ni no : ℕ} {t : List ℚ × List ℚ × List ℚ}
    (h : stl y n np ns nt nl isdeg itdeg ildeg nsjump ntjump nljump ni no = .ok t) :
    t = stlCore y n np ns nt nl isdeg itdeg ildeg nsjump ntjump nljump ni no := by
  unfold stl at h
  rcases hc : stlCheck np ns nt nl isdeg itdeg ildeg with _ | e <;> rw [hc] at h
  · injection h with h
    exact h.symm
  · exact Except.noConfusion h

theorem stlCheck_some_of_badnl (np ns nt nl : ℕ) (isdeg itdeg ildeg : ℤ)
    (h : nl < 3 ∨ nl % 2 ≠ 1) :
    ∃ e, stlCheck np ns nt nl isdeg itdeg ildeg = some e := by
  rw [← isSome_iff_exists]
  unfold stlCheck
  rcases h with h | h
  · exact isSome_ite (isSome_ite (isSome_ite_pos h))
  · refine isSome_ite (isSome_ite ?_)
    by_cases c3 : nl < 3
    · exact isSome_ite_pos c3
    · rw [if_neg c3]
      exact isSome_ite (isSome_ite (isSome_ite (isSome_ite (isSome_ite
        (isSome_ite (isSome_ite_pos h))))))

theorem stl_ok_lengths {y : List ℚ} {n np ns nt nl : ℕ} {isdeg itdeg ildeg : ℤ}
    {nsjump ntjump nljump ni no : ℕ} {t : List ℚ × List ℚ × List ℚ}
    (h : stl y n np ns nt nl isdeg itdeg ildeg nsjump ntjump nljump ni no = .ok t) :
    t.1.length = n ∧ t.2.1.length = n ∧ t.2.2.length = n := by
  rw [stl_eq_ok h]
  exact stlCore_lengths ..

theorem stl_error_of_badnl (y : List ℚ) (n np ns nt nl : ℕ)
    (isdeg itdeg ildeg : ℤ) (nsjump ntjump nljump ni no : ℕ)
    (h : nl < 3 ∨ nl % 2 ≠ 1) :
    ∃ e, stl y n np ns nt nl isdeg itdeg ildeg nsjump ntjump nljump ni no = .error e := by
  obtain ⟨e, he⟩ := stlCheck_some_of_badnl np ns nt nl isdeg itdeg ildeg h
  unfold stl
  rw [he]
  exact ⟨e, rfl⟩



end stl

namespace stl

theorem stl_fit_error_short (y : List ℚ) (n np : ℕ) (p : StlParams)
    (h : n < 2 * np) :
    stl_fit y n np p = .error "series has less than two periods" := by
  unfold stl_fit
  rw [if_pos h]

theorem oddify_ge3 (m : ℕ) : 3 ≤ (if (m ⊔ 3) % 2 = 0 then m ⊔ 3 + 1 else m ⊔ 3) := by
  split <;> omega

theorem oddify_odd (m : ℕ) : (if (m ⊔ 3) % 2 = 0 then m ⊔ 3 + 1 else m ⊔ 3) % 2 = 1 := by
  split <;> omega

theorem stl_fit_isOk (y : List ℚ) (n np : ℕ) (p : StlParams)
    (hn : 2 * np ≤ n)
    (hsd : p.isdeg = 0 ∨ p.isdeg = 1)
    (htd : p.itdeg = 0 ∨ p.itdeg = 1)
    (hld : p.ildeg.getD p.itdeg = 0 ∨ p.ildeg.getD p.itdeg = 1)
    (hnl : p.nl = none ∨ ∃ l, p.nl = some l ∧ 3 ≤ l ∧ l % 2 = 1) :
    (stl_fit y n np p).isOk = true := by
  unfold stl_fit
  rw [if_neg (by omega)]
  dsimp only
  rw [isOk_map, stl_ok]
  · rfl
  · exact oddify_ge3 _
  · exact oddify_ge3 _
  · rcases hnl with hnl | ⟨l, hnl, h3, hodd⟩ <;> rw [hnl]
    · simp only [Option.getD_none, and_true]
      split <;> omega
    · simp only [Option.getD_some]
      rw [if_neg (by simp)]
      exact h3
  · omega
  · exact hsd
  · exact htd
  · exact hld
  · exact oddify_odd _
  · exact oddify_odd _
  · rcases hnl with hnl | ⟨l, hnl, h3, hodd⟩ <;> rw [hnl]
    · simp only [Option.getD_none, and_true]
      split <;> omega
    · simp only [Option.getD_some]
      rw [if_neg (by simp)]
      exact hodd

theorem stl_fit_elim (y : List ℚ) (n np : ℕ) (p : StlParams) (res : StlResult)
    (h : stl_fit y n np p = .ok res) :
    res.seasonal.length = n ∧ res.trend.length = n ∧ res.weights.length = n ∧
      res.remainder = (List.range n).map
        (fun i => y.getD i 0 - res.seasonal.getD i 0 - res.trend.getD i 0) := by
  unfold stl_fit at h
  split at h
  · exact Except.noConfusion h
  · dsimp only at h
    obtain ⟨t, hstl, hres⟩ := map_eq_ok h
    subst hres
    have hl := stl_ok_lengths hstl
    exact ⟨hl.2.1, hl.2.2, hl.1, rfl⟩

theorem stl_error_of_badnl2 (y : List ℚ) (n np ns nt l : ℕ)
    (isdeg itdeg ildeg : ℤ) (nsjump ntjump nljump ni no : ℕ)
    (heven : l % 2 = 0) :
    ∃ e, stl y n np ns nt (if l % 2 = 0 ∧ some l = (none : Option ℕ) then l + 1 else l)
      isdeg itdeg ildeg nsjump ntjump nljump ni no = .error e := by
  rw [if_neg (by simp)]
  exact stl_error_of_badnl y n np ns nt l isdeg itdeg ildeg nsjump ntjump nljump
    ni no (Or.inr (by omega))

theorem stl_fit_error_badnl (y : List ℚ) (n np l : ℕ) (p : StlParams)
    (hn : 2 * np ≤ n) (hnl : p.nl = some l) (heven : l % 2 = 0) :
    ∃ e, stl_fit y n np p = .error e := by
  unfold stl_fit
  rw [if_neg (by omega)]
  dsimp only
  rw [hnl]
  simp only [Option.getD_some]
  apply map_error_of
  apply stl_error_of_badnl2
  exact heven
end stl

namespace stl

theorem stlOuter_eq_iterate (y : List ℚ) (n np ns nt nl : ℕ)
    (isdeg itdeg ildeg : ℤ) (nsjump ntjump nljump ni : ℕ) :
    ∀ (c : ℕ) (userw : Bool) (st : List ℚ × List ℚ × List ℚ),
    stlOuter y n np ns nt nl isdeg itdeg ildeg nsjump ntjump nljump ni
      (c + 1) userw st =
    (stlRobustPass y n np ns nt nl isdeg itdeg ildeg nsjump ntjump nljump ni)^[c]
      (stlPassWith y n np ns nt nl isdeg itdeg ildeg nsjump ntjump nljump ni userw st) := by
  intro c
  induction c with
  | zero =>
    intro userw st
    rw [stlOuter]
    rfl
  | succ m ih =>
    intro userw st
    rw [stlOuter]
    dsimp only
    rw [if_neg (by omega)]
    rw [ih]
    rw [Function.iterate_succ_apply]
    rfl

end stl

section ListHelpers

theorem getD_map_range {α : Type} [Inhabited α] {f : ℕ → α} {m i : ℕ} (h : i < m)
    (d : α) : ((List.range m).map f).getD i d = f i := by
  rw [List.getD_eq_getElem _ _ (by simpa using h), List.getElem_map, List.getElem_range]

theorem sum_set_getD (L : List ℚ) (n : ℕ) (a : ℚ) (h : n < L.length) :
    (L.set n a).sum = L.sum - L.getD n 0 + a := by
  induction L generalizing n with
  | nil => simp at h
  | cons b t ih =>
    cases n with
    | zero =>
      simp only [List.set, List.sum_cons, List.getD_cons_zero]
      ring
    | succ m =>
      simp only [List.set, List.sum_cons, List.getD_cons_succ]
      rw [ih m (by simpa using h)]
      ring

theorem getD_map_lists {L : List (List ℚ)} {g : List ℚ → ℚ} {idx : ℕ}
    (h : idx < L.length) : (L.map g).getD idx 0 = g (L.getD idx []) := by
  rw [List.getD_eq_getElem _ _ (by simpa using h), List.getElem_map,
    List.getD_eq_getElem _ _ h]

theorem getD_set_ne {α : Type} {L : List α} {idx m : ℕ} {v d : α} (h : m ≠ idx) :
    (L.set idx v).getD m d = L.getD m d := by
  by_cases hm : m < L.length
  · rw [List.getD_eq_getElem _ _ (by simpa using hm), List.getD_eq_getElem _ _ hm,
      List.getElem_set_ne (by omega)]
  · rw [List.getD_eq_default _ _ (by simpa using hm),
      List.getD_eq_default _ _ (by omega)]

theorem getD_set_self {α : Type} {L : List α} {idx : ℕ} {v d : α}
    (h : idx < L.length) : (L.set idx v).getD idx d = v := by
  rw [List.getD_eq_getElem _ _ (by simpa using h), List.getElem_set_self]

end ListHelpers

namespace mstl

theorem mstlStep_Q {sp : stl.StlParams} {swin : Option (List ℕ)}
    {seasIds : List ℕ} {j : ℕ} {st : MState} {pr : ℕ × ℕ} {st2 : MState}
    (hidx : pr.2 < st.seasonality.length)
    (hj : 0 < j ∨ st.seasonality.getD pr.2 [] = [])
    (h : mstlStep sp swin seasIds j st pr = .ok st2) :
    st2.deseas.length = st.deseas.length ∧
    st2.seasonality.length = st.seasonality.length ∧
    (∀ i, i < st.deseas.length →
      st2.deseas.getD i 0 + (st2.seasonality.map fun s => s.getD i 0).sum =
        st.deseas.getD i 0 + (st.seasonality.map fun s => s.getD i 0).sum) ∧
    (∀ m, m ≠ pr.2 → st2.seasonality.getD m [] = st.seasonality.getD m []) := by
  unfold mstlStep at h
  obtain ⟨fit, hfit, hst2⟩ := map_eq_ok h
  subst hst2
  by_cases hjp : 0 < j
  · simp only [if_pos hjp]
    refine ⟨by simp, by simp, ?_, fun m hm => getD_set_ne hm⟩
    intro i hi
    simp only [List.length_map, List.length_range]
    rw [getD_map_range hi]
    rw [getD_map_range hi]
    rw [List.map_set]
    rw [sum_set_getD _ _ _ (by simpa using hidx)]
    rw [getD_map_lists hidx]
    ring
  · simp only [if_neg hjp]
    refine ⟨by simp, by simp, ?_, fun m hm => getD_set_ne hm⟩
    intro i hi
    rw [getD_map_range hi]
    rw [List.map_set]
    rw [sum_set_getD _ _ _ (by simpa using hidx)]
    rw [getD_map_lists hidx]
    rcases hj with hj | hj
    · omega
    · rw [hj]
      simp only [List.getD_nil]
      ring
end mstl

namespace mstl

theorem mstlSteps_Q {sp : stl.StlParams} {swin : Option (List ℕ)}
    {seasIds : List ℕ} {j : ℕ} :
    ∀ (l : List (ℕ × ℕ)) (st st2 : MState),
    (∀ pr ∈ l, pr.2 < st.seasonality.length) →
    (j = 0 → (l.map Prod.snd).Nodup ∧ ∀ pr ∈ l, st.seasonality.getD pr.2 [] = []) →
    mstlSteps sp swin seasIds j l st = .ok st2 →
    st2.deseas.length = st.deseas.length ∧
    st2.seasonality.length = st.seasonality.length ∧
    (∀ i, i < st.deseas.length →
      st2.deseas.getD i 0 + (st2.seasonality.map fun s => s.getD i 0).sum =
        st.deseas.getD i 0 + (st.seasonality.map fun s => s.getD i 0).sum) := by
  intro l
  induction l with
  | nil =>
    intro st st2 _ _ h
    injection h with h
    subst h
    exact ⟨rfl, rfl, fun i _ => rfl⟩
  | cons pr rest ih =>
    intro st st2 hb hz h
    rw [mstlSteps] at h
    split at h
    · exact Except.noConfusion h
    · next stm hstep =>
      have hq := mstlStep_Q (hb pr (by simp)) (by
        rcases Nat.eq_zero_or_pos j with hj | hj
        · exact Or.inr ((hz hj).2 pr (by simp))
        · exact Or.inl hj) hstep
      have hrest := ih stm st2
        (fun pr2 hpr2 => by rw [hq.2.1]; exact hb pr2 (by simp [hpr2]))
        (fun hj => by
          obtain ⟨hnd, hnil⟩ := hz hj
          refine ⟨(List.nodup_cons.mp (by simpa using hnd)).2, ?_⟩
          intro pr2 hpr2
          have hne : pr2.2 ≠ pr.2 := by
            intro hcontra
            exact (List.nodup_cons.mp (by simpa using hnd)).1
              (hcontra ▸ List.mem_map_of_mem Prod.snd hpr2)
          rw [hq.2.2.2 pr2.2 hne]
          exact hnil pr2 (by simp [hpr2])) h
      refine ⟨by omega, by omega, ?_⟩
      intro i hi
      rw [hrest.2.2 i (by omega), hq.2.2.1 i hi]

theorem mstlRounds_Q {sp : stl.StlParams} {swin : Option (List ℕ)}
    {seasIds : List ℕ} (prs : List (ℕ × ℕ)) :
    ∀ (r j : ℕ) (st st2 : MState),
    (∀ pr ∈ prs, pr.2 < st.seasonality.length) →
    (j = 0 → (prs.map Prod.snd).Nodup ∧ ∀ pr ∈ prs, st.seasonality.getD pr.2 [] = []) →
    mstlRounds sp swin seasIds prs j r st = .ok st2 →
    st2.deseas.length = st.deseas.length ∧
    st2.seasonality.length = st.seasonality.length ∧
    (∀ i, i < st.deseas.length →
      st2.deseas.getD i 0 + (st2.seasonality.map fun s => s.getD i 0).sum =
        st.deseas.getD i 0 + (st.seasonality.map fun s => s.getD i 0).sum) := by
  intro r
  induction r with
  | zero =>
    intro j st st2 _ _ h
    injection h with h
    subst h
    exact ⟨rfl, rfl, fun i _ => rfl⟩
  | succ m ih =>
    intro j st st2 hb hz h
    rw [mstlRounds] at h
    split at h
    · exact Except.noConfusion h
    · next stm hsteps =>
      have hq := mstlSteps_Q prs st stm hb hz hsteps
      have hrest := ih (j + 1) stm st2
        (fun pr2 hpr2 => by rw [hq.2.1]; exact hb pr2 hpr2)
        (fun hcontra => absurd hcontra (by omega)) h
      refine ⟨by omega, by omega, ?_⟩
      intro i hi
      rw [hrest.2.2 i (by omega), hq.2.2 i hi]

end mstl

namespace mstl

theorem sortedIndices_perm (seasIds : List ℕ) :
    (sortedIndices seasIds).Perm (List.range seasIds.length) :=
  List.perm_insertionSort _ _

theorem sortedIndices_nodup (seasIds : List ℕ) : (sortedIndices seasIds).Nodup :=
  (sortedIndices_perm seasIds).symm.nodup (List.nodup_range _)

theorem sortedIndices_mem_lt (seasIds : List ℕ) {x : ℕ}
    (h : x ∈ sortedIndices seasIds) : x < seasIds.length := by
  have := (sortedIndices_perm seasIds).mem_iff.mp h
  simpa using this

theorem sortedIndices_length (seasIds : List ℕ) :
    (sortedIndices seasIds).length = seasIds.length := by
  simpa using (sortedIndices_perm seasIds).length_eq

theorem enum_snd_mem {l : List ℕ} {pr : ℕ × ℕ} (h : pr ∈ l.enum) : pr.2 ∈ l := by
  rw [List.enum_eq_zip_range] at h
  exact (List.of_mem_zip h).2

theorem enum_map_snd (l : List ℕ) : l.enum.map Prod.snd = l := by
  rw [List.enum_eq_zip_range, List.map_snd_zip]
  simp

theorem mstl_elim {ops : RealOps} {x : List ℚ} {seasIds : List ℕ}
    {iterate : ℕ} {lambda : Option ℚ} {swin : Option (List ℕ)}
    {sp : stl.StlParams} {r : MstlResult}
    (h : mstl ops x seasIds iterate lambda swin sp = .ok r) :
    ∃ st, mstlRounds sp swin seasIds (sortedIndices seasIds).enum 0
        (if seasIds.length = 1 then 1 else iterate)
        ⟨mstlInput ops lambda x, List.replicate seasIds.length [], []⟩ = .ok st ∧
      r.seasonal = st.seasonality ∧ r.trend = st.trend ∧
      r.remainder = (List.range st.deseas.length).map
        (fun t => st.deseas.getD t 0 - st.trend.getD t 0) := by
  unfold mstl at h
  dsimp only at h
  by_cases hemp : seasIds.isEmpty = true
  · rw [if_pos hemp] at h
    exact Except.noConfusion h
  · rw [if_neg hemp] at h
    cases hrounds : mstlRounds sp swin seasIds (sortedIndices seasIds).enum 0
        (if seasIds.length = 1 then 1 else iterate)
        ⟨mstlInput ops lambda x, List.replicate seasIds.length [], []⟩ with
    | error e =>
      rw [hrounds] at h
      exact Except.noConfusion h
    | ok st =>
      rw [hrounds] at h
      dsimp only at h
      injection h with h
      subst h
      exact ⟨st, rfl, rfl, rfl, rfl⟩

theorem fit_elim {ops : RealOps} {p : MstlParams} {series : List ℚ}
    {periods : List ℕ} {r : MstlResult}
    (h : MstlParams.fit ops p series periods = .ok r) :
    mstl ops series periods p.iterate p.lambda p.swin p.stlParams = .ok r := by
  unfold MstlParams.fit at h
  split at h
  · exact Except.noConfusion h
  · split at h
    · exact Except.noConfusion h
    · split at h
      · exact Except.noConfusion h
      · exact h

theorem mstlInput_length (ops : RealOps) (lambda : Option ℚ) (x : List ℚ) :
    (mstlInput ops lambda x).length = x.length := by
  cases lambda with
  | none => rfl
  | some l =>
    show (box_cox ops x l).length = x.length
    unfold box_cox
    split <;> simp

end mstl

namespace mstl

theorem getD_replicate_nil (m x : ℕ) :
    (List.replicate m ([] : List ℚ)).getD x [] = [] := by
  by_cases hx : x < m
  · rw [List.getD_eq_getElem _ _ (by simpa using hx), List.getElem_replicate]
  · rw [List.getD_eq_default _ _ (by simpa using hx)]

theorem mstl_fit_identity {ops : RealOps} {p : MstlParams} {series : List ℚ}
    {periods : List ℕ} {r : MstlResult}
    (h : MstlParams.fit ops p series periods = .ok r) :
    ∀ i, i < series.length →
      (mstlInput ops p.lambda series).getD i 0 =
        (r.seasonal.map fun s => s.getD i 0).sum + r.trend.getD i 0 +
          r.remainder.getD i 0 := by
  obtain ⟨st, hrounds, hseas, htrend, hrem⟩ := mstl_elim (fit_elim h)
  have hq := mstlRounds_Q ((sortedIndices periods).enum) _ 0 _ st
    (fun pr hpr => by
      simp only [List.length_replicate]
      exact sortedIndices_mem_lt periods (enum_snd_mem hpr))
    (fun _ => ⟨by rw [enum_map_snd]; exact sortedIndices_nodup periods,
      fun pr _ => getD_replicate_nil _ _⟩)
    hrounds
  intro i hi
  have hdlen : (mstlInput ops p.lambda series).length = series.length :=
    mstlInput_length ops p.lambda series
  have hi2 : i < (mstlInput ops p.lambda series).length := by omega
  have hinv := hq.2.2 i hi2
  have hzero : ((List.replicate periods.length ([] : List ℚ)).map
      fun s => s.getD i 0).sum = 0 := by
    rw [List.map_replicate]
    simp
  rw [hzero] at hinv
  have hstlen : st.deseas.length = (mstlInput ops p.lambda series).length := hq.1
  rw [hseas, htrend, hrem]
  rw [getD_map_range (by omega : i < st.deseas.length)]
  simp only [] at hinv
  linarith [hinv]

end mstl

section ListHelpers2

theorem getD_map_nat (f : ℕ → ℕ) {L : List ℕ} {i : ℕ} (h : i < L.length) :
    (L.map f).getD i 0 = f (L.getD i 0) := by
  rw [List.getD_eq_getElem _ _ (by simpa using h), List.getElem_map,
    List.getD_eq_getElem _ _ h]

theorem getD_mem_of_lt {L : List ℕ} {i : ℕ} (h : i < L.length) : L.getD i 0 ∈ L := by
  rw [List.getD_eq_getElem _ _ h]
  exact List.getElem_mem h

theorem nodup_getD_ne {L : List ℕ} (hnd : L.Nodup) {t i : ℕ} (ht : t < L.length)
    (hi : i < L.length) (hne : t ≠ i) : L.getD t 0 ≠ L.getD i 0 := by
  rw [List.getD_eq_getElem _ _ ht, List.getD_eq_getElem _ _ hi]
  intro hcontra
  exact hne (hnd.getElem_inj_iff.mp hcontra)

theorem enum_as_map (L : List ℕ) :
    L.enum = (List.range L.length).map fun i => (i, L.getD i 0) := by
  refine List.ext_getElem (by simp) ?_
  intro t h1 h2
  rw [List.getElem_enum, List.getElem_map, List.getElem_range,
    List.getD_eq_getElem _ _ (by simpa using h1)]

theorem map_range_getD (L : List ℕ) :
    (List.range L.length).map (fun i => L.getD i 0) = L := by
  refine List.ext_getElem (by simp) ?_
  intro t h1 h2
  rw [List.getElem_map, List.getElem_range, List.getD_eq_getElem _ _ h2]

end ListHelpers2

namespace mstl

theorem mstlStep_sim {sp : stl.StlParams} {seasIds : List ℕ} {j m : ℕ}
    {indices : List ℕ} (hperm : indices.Perm (List.range m))
    {st cst : MState} {i : ℕ} (him : i < m)
    (hrel : SimRel m indices st cst) {st2 : MState}
    (h : mstlStep sp none seasIds j st (i, indices.getD i 0) = .ok st2) :
    ∃ cst2, mstlStep sp none (indices.map fun t => seasIds.getD t 0) j cst (i, i) =
      .ok cst2 ∧ SimRel m indices st2 cst2 := by
  have hlen : indices.length = m := by simpa using hperm.length_eq
  have hnd : indices.Nodup := hperm.symm.nodup (List.nodup_range m)
  have hidxm : ∀ t, t < m → indices.getD t 0 < m := by
    intro t ht
    have ht2 : t < indices.length := by omega
    have := hperm.mem_iff.mp (getD_mem_of_lt ht2)
    simpa using this
  have him2 : i < indices.length := by omega
  unfold mstlStep at h ⊢
  dsimp only at h ⊢
  rw [hrel.1, hrel.2.2.2.2 i him] at h
  rw [show seasIds.getD (indices.getD i 0) 0 =
    (indices.map fun t => seasIds.getD t 0).getD i 0 from
      (getD_map_nat (fun t => seasIds.getD t 0) him2).symm] at h
  obtain ⟨fit, hfit, hst2⟩ := map_eq_ok h
  subst hst2
  rw [hfit]
  refine ⟨_, rfl, rfl, rfl, by simp [hrel.2.2.1], by simp [hrel.2.2.2.1], ?_⟩
  intro t ht
  by_cases hti : t = i
  · subst hti
    rw [getD_set_self (by rw [hrel.2.2.1]; exact hidxm t ht),
      getD_set_self (by rw [hrel.2.2.2.1]; exact ht)]
  · rw [getD_set_ne (nodup_getD_ne hnd (by omega) (by omega) hti),
      getD_set_ne hti]
    exact hrel.2.2.2.2 t ht

theorem mstlSteps_sim {sp : stl.StlParams} {seasIds : List ℕ} {j m : ℕ}
    {indices : List ℕ} (hperm : indices.Perm (List.range m)) :
    ∀ (l : List ℕ) (st cst : MState), (∀ i ∈ l, i < m) →
    SimRel m indices st cst → ∀ st2,
    mstlSteps sp none seasIds j (l.map fun i => (i, indices.getD i 0)) st = .ok st2 →
    ∃ cst2, mstlSteps sp none (indices.map fun t => seasIds.getD t 0) j
        (l.map fun i => (i, i)) cst = .ok cst2 ∧ SimRel m indices st2 cst2 := by
  intro l
  induction l with
  | nil =>
    intro st cst _ hrel st2 h
    injection h with h
    subst h
    exact ⟨cst, rfl, hrel⟩
  | cons i rest ih =>
    intro st cst hb hrel st2 h
    rw [List.map_cons, mstlSteps] at h
    split at h
    · exact Except.noConfusion h
    · next stm hstep =>
      obtain ⟨cstm, hcstep, hrelm⟩ := mstlStep_sim hperm (hb i (by simp)) hrel hstep
      obtain ⟨cst2, hcsteps, hrel2⟩ := ih stm cstm (fun i2 hi2 => hb i2 (by simp [hi2]))
        hrelm st2 h
      refine ⟨cst2, ?_, hrel2⟩
      rw [List.map_cons, mstlSteps, hcstep]
      exact hcsteps

theorem mstlRounds_sim {sp : stl.StlParams} {seasIds : List ℕ} {m : ℕ}
    {indices : List ℕ} (hperm : indices.Perm (List.range m)) :
    ∀ (r j : ℕ) (st cst : MState), SimRel m indices st cst → ∀ st2,
    mstlRounds sp none seasIds ((List.range m).map fun i => (i, indices.getD i 0))
      j r st = .ok st2 →
    ∃ cst2, mstlRounds sp none (indices.map fun t => seasIds.getD t 0)
        ((List.range m).map fun i => (i, i)) j r cst = .ok cst2 ∧
      SimRel m indices st2 cst2 := by
  intro r
  induction r with
  | zero =>
    intro j st cst hrel st2 h
    injection h with h
    subst h
    exact ⟨cst, rfl, hrel⟩
  | succ rr ih =>
    intro j st cst hrel st2 h
    rw [mstlRounds] at h
    split at h
    · exact Except.noConfusion h
    · next stm hsteps =>
      obtain ⟨cstm, hcsteps, hrelm⟩ := mstlSteps_sim hperm (List.range m) st cst
        (fun i hi => by simpa using hi) hrel stm hsteps
      obtain ⟨cst2, hcrest, hrel2⟩ := ih (j + 1) stm cstm hrelm st2 h
      refine ⟨cst2, ?_, hrel2⟩
      rw [mstlRounds, hcsteps]
      exact hcrest

end mstl

namespace mstl

theorem zip_scatter_perm {ps : List ℕ} {seas cs : List (List ℚ)}
    {indices : List ℕ} {m : ℕ}
    (hps : ps.length = m) (hseas : seas.length = m) (hcs : cs.length = m)
    (hperm : indices.Perm (List.range m))
    (hsc : ∀ t, t < m → seas.getD (indices.getD t 0) [] = cs.getD t []) :
    (ps.zip seas).Perm ((indices.map fun t => ps.getD t 0).zip cs) := by
  have hlen : indices.length = m := by simpa using hperm.length_eq
  have h1 : ps.zip seas =
      (List.range m).map (fun u => (ps.getD u 0, seas.getD u [])) := by
    refine List.ext_getElem (by simp [hps, hseas]) ?_
    intro t h1 h2
    have htm : t < m := by simpa using h2
    rw [List.getElem_zip, List.getElem_map, List.getElem_range,
      List.getD_eq_getElem _ _ (by omega), List.getD_eq_getElem _ _ (by omega)]
  have h2 : (indices.map fun t => ps.getD t 0).zip cs =
      indices.map (fun u => (ps.getD u 0, seas.getD u [])) := by
    refine List.ext_getElem (by simp [hlen, hcs]) ?_
    intro t ha hb
    have htm : t < m := by
      simp only [List.length_zip, List.length_map, hlen, hcs] at ha
      omega
    rw [List.getElem_zip, List.getElem_map, List.getElem_map,
      show cs[t] = cs.getD t [] from (List.getD_eq_getElem _ _ (by omega)).symm,
      ← hsc t htm,
      show indices[t] = indices.getD t 0 from (List.getD_eq_getElem _ _ (by omega)).symm]
  rw [h1, h2]
  exact (hperm.map _).symm

theorem vals_sorted (seasIds : List ℕ) :
    List.Sorted (· ≤ ·) ((sortedIndices seasIds).map fun t => seasIds.getD t 0) := by
  haveI hto : IsTotal ℕ (fun a b => seasIds.getD a 0 ≤ seasIds.getD b 0) :=
    ⟨fun a b => le_total _ _⟩
  haveI htr : IsTrans ℕ (fun a b => seasIds.getD a 0 ≤ seasIds.getD b 0) :=
    ⟨fun a b c => le_trans⟩
  have hs := List.sorted_insertionSort
    (fun a b => seasIds.getD a 0 ≤ seasIds.getD b 0) (List.range seasIds.length)
  exact List.pairwise_map.mpr hs

theorem vals_perm (seasIds : List ℕ) :
    (((sortedIndices seasIds).map fun t => seasIds.getD t 0)).Perm seasIds := by
  have h1 := (sortedIndices_perm seasIds).map (fun t => seasIds.getD t 0)
  rw [map_range_getD seasIds] at h1
  exact h1

theorem vals_eq_of_perm {periods periods' : List ℕ} (h : periods.Perm periods') :
    ((sortedIndices periods).map fun t => periods.getD t 0) =
      ((sortedIndices periods').map fun t => periods'.getD t 0) :=
  List.eq_of_perm_of_sorted
    ((vals_perm periods).trans (h.trans (vals_perm periods').symm))
    (vals_sorted periods) (vals_sorted periods')

end mstl

namespace mstl

theorem mstl_fit_perm {ops : RealOps} {p : MstlParams} {series : List ℚ}
    {periods periods' : List ℕ} {ra rb : MstlResult}
    (hswin : p.swin = none) (hperm : periods.Perm periods')
    (ha : MstlParams.fit ops p series periods = .ok ra)
    (hb : MstlParams.fit ops p series periods' = .ok rb) :
    ra.trend = rb.trend ∧ ra.remainder = rb.remainder ∧
    (periods.zip ra.seasonal).Perm (periods'.zip rb.seasonal) := by
  have hma := fit_elim ha
  have hmb := fit_elim hb
  rw [hswin] at hma hmb
  obtain ⟨stA, hroundsA, hseasA, htrendA, hremA⟩ := mstl_elim hma
  obtain ⟨stB, hroundsB, hseasB, htrendB, hremB⟩ := mstl_elim hmb
  have hlenBA : periods'.length = periods.length := hperm.length_eq.symm
  rw [enum_as_map, sortedIndices_length] at hroundsA hroundsB
  rw [hlenBA] at hroundsB
  have hpermA := sortedIndices_perm periods
  have hpermB : (sortedIndices periods').Perm (List.range periods.length) := by
    rw [← hlenBA]
    exact sortedIndices_perm periods'
  have hrelInit : SimRel periods.length (sortedIndices periods)
      ⟨mstlInput ops p.lambda series, List.replicate periods.length [], []⟩
      ⟨mstlInput ops p.lambda series, List.replicate periods.length [], []⟩ :=
    ⟨rfl, rfl, by simp, by simp,
      fun t ht => by rw [getD_replicate_nil, getD_replicate_nil]⟩
  have hrelInitB : SimRel periods.length (sortedIndices periods')
      ⟨mstlInput ops p.lambda series, List.replicate periods.length [], []⟩
      ⟨mstlInput ops p.lambda series, List.replicate periods.length [], []⟩ :=
    ⟨rfl, rfl, by simp, by simp,
      fun t ht => by rw [getD_replicate_nil, getD_replicate_nil]⟩
  obtain ⟨cstA, hcA, hrelA⟩ := mstlRounds_sim hpermA
    (if periods.length = 1 then 1 else p.iterate) 0 _ _ hrelInit stA hroundsA
  obtain ⟨cstB, hcB, hrelB⟩ := mstlRounds_sim hpermB
    (if periods.length = 1 then 1 else p.iterate) 0 _ _ hrelInitB stB hroundsB
  rw [← vals_eq_of_perm hperm] at hcB
  rw [hcA] at hcB
  injection hcB with hcst
  subst hcst
  refine ⟨?_, ?_, ?_⟩
  · rw [htrendA, htrendB, hrelA.2.1, hrelB.2.1]
  · rw [hremA, hremB, hrelA.1, hrelB.1, hrelA.2.1, hrelB.2.1]
  · have hzA := zip_scatter_perm rfl hrelA.2.2.1 hrelA.2.2.2.1 hpermA hrelA.2.2.2.2
    have hzB := zip_scatter_perm hlenBA hrelB.2.2.1 hrelB.2.2.2.1 hpermB hrelB.2.2.2.2
    rw [hseasA, hseasB]
    refine hzA.trans (List.Perm.trans ?_ hzB.symm)
    rw [vals_eq_of_perm hperm]

end mstl

namespace mstl

theorem mstlStep_deseas_length {sp : stl.StlParams} {swin : Option (List ℕ)}
    {seasIds : List ℕ} {j : ℕ} {st : MState} {pr : ℕ × ℕ} {stm : MState}
    (h : mstlStep sp swin seasIds j st pr = .ok stm) :
    stm.deseas.length = st.deseas.length := by
  unfold mstlStep at h
  obtain ⟨fit, hfit, hstm⟩ := map_eq_ok h
  subst hstm
  simp only [List.length_map, List.length_range]
  split <;> simp

theorem mstlSteps_isOk {sp : stl.StlParams} {seasIds : List ℕ} {j k : ℕ}
    (hsd : sp.isdeg = 0 ∨ sp.isdeg = 1)
    (htd : sp.itdeg = 0 ∨ sp.itdeg = 1)
    (hld : sp.ildeg.getD sp.itdeg = 0 ∨ sp.ildeg.getD sp.itdeg = 1)
    (hnl : sp.nl = none ∨ ∃ l, sp.nl = some l ∧ 3 ≤ l ∧ l % 2 = 1) :
    ∀ (l : List (ℕ × ℕ)) (st : MState),
    (∀ pr ∈ l, 2 * seasIds.getD pr.2 0 ≤ k) → st.deseas.length = k →
    ∃ st2, mstlSteps sp none seasIds j l st = .ok st2 ∧ st2.deseas.length = k := by
  intro l
  induction l with
  | nil =>
    intro st _ hk
    exact ⟨st, rfl, hk⟩
  | cons pr rest ih =>
    intro st hb hk
    have hds : (if 0 < j then
        (List.range st.deseas.length).map fun t =>
          (st.seasonality.getD pr.2 []).getD t 0 + st.deseas.getD t 0
      else st.deseas).length = k := by
      split <;> simp [hk]
    have hfit : (stl.stl_fit
        (if 0 < j then
          (List.range st.deseas.length).map fun t =>
            (st.seasonality.getD pr.2 []).getD t 0 + st.deseas.getD t 0
        else st.deseas)
        (if 0 < j then
          (List.range st.deseas.length).map fun t =>
            (st.seasonality.getD pr.2 []).getD t 0 + st.deseas.getD t 0
        else st.deseas).length
        (seasIds.getD pr.2 0)
        (if sp.ns.isSome then sp else sp.seasonal_length (7 + 4 * (pr.1 + 1)))).isOk
        = true := by
      apply stl.stl_fit_isOk
      · rw [hds]
        exact hb pr (by simp)
      all_goals
        split
        · first | exact hsd | exact htd | exact hld | exact hnl
        · first | exact hsd | exact htd | exact hld | exact hnl
    obtain ⟨fit, hfit2⟩ := isOk_iff_exists.mp hfit
    have hstep0 : ∃ stm, mstlStep sp none seasIds j st pr = .ok stm := by
      unfold mstlStep
      dsimp only
      rw [hfit2]
      exact ⟨_, rfl⟩
    obtain ⟨stm, hstep⟩ := hstep0
    have hkm : stm.deseas.length = k := by
      rw [mstlStep_deseas_length hstep]
      exact hk
    obtain ⟨st2, hsteps, hk2⟩ := ih stm (fun pr2 hpr2 => hb pr2 (by simp [hpr2])) hkm
    refine ⟨st2, ?_, hk2⟩
    rw [mstlSteps, hstep]
    exact hsteps

theorem mstlRounds_isOk {sp : stl.StlParams} {seasIds : List ℕ}
    {prs : List (ℕ × ℕ)} {k : ℕ}
    (hsd : sp.isdeg = 0 ∨ sp.isdeg = 1)
    (htd : sp.itdeg = 0 ∨ sp.itdeg = 1)
    (hld : sp.ildeg.getD sp.itdeg = 0 ∨ sp.ildeg.getD sp.itdeg = 1)
    (hnl : sp.nl = none ∨ ∃ l, sp.nl = some l ∧ 3 ≤ l ∧ l % 2 = 1)
    (hb : ∀ pr ∈ prs, 2 * seasIds.getD pr.2 0 ≤ k) :
    ∀ (r j : ℕ) (st : MState), st.deseas.length = k →
    ∃ st2, mstlRounds sp none seasIds prs j r st = .ok st2 := by
  intro r
  induction r with
  | zero => exact fun j st _ => ⟨st, rfl⟩
  | succ m ih =>
    intro j st hk
    obtain ⟨stm, hsteps, hkm⟩ := mstlSteps_isOk hsd htd hld hnl prs st hb hk
    obtain ⟨st2, hrest⟩ := ih (j + 1) stm hkm
    refine ⟨st2, ?_⟩
    rw [mstlRounds, hsteps]
    exact hrest

theorem checkPeriods_none_of {n : ℕ} :
    ∀ {ps : List ℕ}, (∀ q ∈ ps, 2 ≤ q ∧ q * 2 ≤ n) → checkPeriods n ps = none := by
  intro ps
  induction ps with
  | nil => intro _; rfl
  | cons q rest ih =>
    intro hq
    rw [checkPeriods]
    rw [if_neg (by have := hq q (by simp); omega),
      if_neg (by have := hq q (by simp); omega)]
    exact ih fun q2 hq2 => hq q2 (by simp [hq2])

theorem checkPeriods_some_of (n : ℕ) :
    ∀ {ps : List ℕ}, (∃ q ∈ ps, q < 2) → ∃ e, checkPeriods n ps = some e := by
  intro ps
  induction ps with
  | nil =>
    rintro ⟨q, hq, _⟩
    exact absurd hq (List.not_mem_nil q)
  | cons q0 rest ih =>
    rintro ⟨q, hq, hq2⟩
    rw [checkPeriods]
    by_cases h0 : q0 < 2
    · rw [if_pos h0]
      exact ⟨_, rfl⟩
    · rw [if_neg h0]
      by_cases h1 : n < q0 * 2
      · rw [if_pos h1]
        exact ⟨_, rfl⟩
      · rw [if_neg h1]
        refine ih ⟨q, ?_, hq2⟩
        rcases List.mem_cons.mp hq with h | h
        · omega
        · exact h

theorem fit_error_of_small_period {ops : RealOps} {p : MstlParams}
    {series : List ℚ} {periods : List ℕ} (h : ∃ q ∈ periods, q < 2) :
    ∃ e, MstlParams.fit ops p series periods = .error e := by
  obtain ⟨e, he⟩ := checkPeriods_some_of series.length h
  unfold MstlParams.fit
  rw [he]
  exact ⟨e, rfl⟩

theorem fit_isOk {ops : RealOps} {p : MstlParams} {series : List ℚ}
    {periods : List ℕ}
    (hlam : p.lambda = none) (hswin : p.swin = none)
    (hsd : p.stlParams.isdeg = 0 ∨ p.stlParams.isdeg = 1)
    (htd : p.stlParams.itdeg = 0 ∨ p.stlParams.itdeg = 1)
    (hld : p.stlParams.ildeg.getD p.stlParams.itdeg = 0 ∨
      p.stlParams.ildeg.getD p.stlParams.itdeg = 1)
    (hnl : p.stlParams.nl = none ∨
      ∃ l, p.stlParams.nl = some l ∧ 3 ≤ l ∧ l % 2 = 1)
    (hne : periods ≠ [])
    (hq : ∀ q ∈ periods, 2 ≤ q ∧ q * 2 ≤ series.length) :
    (MstlParams.fit ops p series periods).isOk = true := by
  unfold MstlParams.fit
  rw [checkPeriods_none_of hq, hlam, hswin]
  show (mstl ops series periods p.iterate none none p.stlParams).isOk = true
  unfold mstl
  dsimp only
  rw [if_neg (by simpa using hne)]
  have hb : ∀ pr ∈ (sortedIndices periods).enum,
      2 * periods.getD pr.2 0 ≤ (mstlInput ops none series).length := by
    intro pr hpr
    have h1 : pr.2 ∈ sortedIndices periods := enum_snd_mem hpr
    have h2 : pr.2 < periods.length := sortedIndices_mem_lt periods h1
    have h3 : periods.getD pr.2 0 ∈ periods := getD_mem_of_lt h2
    have h4 := hq _ h3
    rw [mstlInput_length]
    omega
  obtain ⟨st2, hrounds⟩ := mstlRounds_isOk hsd htd hld hnl hb
    (if periods.length = 1 then 1 else p.iterate) 0
    ⟨mstlInput ops none series, List.replicate periods.length [], []⟩ rfl
  rw [hrounds]
  rfl

end mstl

namespace stl

theorem rwts_eq_spec (y : List ℚ) (n : ℕ) (fit : List ℚ) :
    rwts y n fit = rwtsSpec y n fit := by
  unfold rwts rwtsSpec
  dsimp only
  have hc : ∀ a b : ℚ, 6 * ((a + b) / 2) = 3 * (a + b) := fun a b => by ring
  simp only [hc]

theorem rwts_mem_bounds (y : List ℚ) (n : ℕ) (fit : List ℚ) :
    ∀ w ∈ rwts y n fit, 0 ≤ w ∧ w ≤ 1 := by
  intro w hw
  unfold rwts at hw
  dsimp only at hw
  rw [List.mem_map] at hw
  obtain ⟨i, hi, hw⟩ := hw
  have hsortnn : ∀ m : ℕ,
      0 ≤ (((List.range n).map fun i2 => |y.getD i2 0 - fit.getD i2 0|).insertionSort
        (· ≤ ·)).getD m 0 := by
    intro m
    by_cases hm : m < (((List.range n).map
        fun i2 => |y.getD i2 0 - fit.getD i2 0|).insertionSort (· ≤ ·)).length
    · rw [List.getD_eq_getElem _ _ hm]
      have hmem := List.getElem_mem hm
      have hmem2 := (List.perm_insertionSort (· ≤ ·) _).mem_iff.mp hmem
      rw [List.mem_map] at hmem2
      obtain ⟨i2, _, hv⟩ := hmem2
      rw [← hv]
      exact abs_nonneg _
    · rw [List.getD_eq_default _ _ (by omega)]
  set sm := (((List.range n).map fun i2 => |y.getD i2 0 - fit.getD i2 0|).insertionSort
    (· ≤ ·)).getD ((n - 1) / 2) 0 + (((List.range n).map
      fun i2 => |y.getD i2 0 - fit.getD i2 0|).insertionSort (· ≤ ·)).getD (n / 2) 0
    with hsm
  have hcm : 0 ≤ 3 * sm := by
    have h1 := hsortnn ((n - 1) / 2)
    have h2 := hsortnn (n / 2)
    rw [hsm]
    linarith
  have hr : (0 : ℚ) ≤ |y.getD i 0 - fit.getD i 0| := abs_nonneg _
  rw [← hw]
  split
  · norm_num
  · next h1 =>
    split
    · next h2 =>
      have hpos : 0 < 3 * sm := by
        by_contra hcontra
        push_neg at hcontra
        have h30 : 3 * sm = 0 := le_antisymm hcontra hcm
        rw [h30] at h1 h2
        simp at h1 h2
        exact h1 h2
      set r := |y.getD i 0 - fit.getD i 0| with hrdef
      set q := r / (3 * sm) with hqdef
      have hq0 : 0 ≤ q := div_nonneg hr (by linarith)
      have hq1 : q ≤ 999 / 1000 := by
        rw [hqdef, div_le_iff₀ hpos]
        linarith
      constructor
      · positivity
      · have hq2 : q ^ 2 ≤ 1 := by nlinarith
        have h1q : 0 ≤ 1 - q ^ 2 := by linarith
        have h1q2 : 1 - q ^ 2 ≤ 1 := by nlinarith [sq_nonneg q]
        calc (1 - q ^ 2) ^ 2 ≤ 1 ^ 2 := pow_le_pow_left h1q h1q2 2
          _ = 1 := one_pow 2
    · norm_num

theorem var_nonneg (s : List ℚ) : 0 ≤ var s := by
  unfold var
  dsimp only
  apply div_nonneg
  · apply List.sum_nonneg
    intro x hx
    rw [List.mem_map] at hx
    obtain ⟨v, _, hv⟩ := hx
    rw [← hv]
    exact sq_nonneg _
  · exact_mod_cast Nat.zero_le _

end stl

namespace stl

theorem ess_false_nil (z : List ℚ) (n len : ℕ) (ideg : ℤ) (njump : ℕ)
    (rw : List ℚ) :
    ess z n len ideg njump false rw = ess z n len ideg njump false [] :=
  ess_false z n len ideg njump rw []

end stl

/-- C1: for every valid series `y` of length `n` and every accepted
configuration, `StlParams.fit` (modelled by `stl_fit`) returns seasonal,
trend, remainder and weights sequences all of length `n` with
`seasonal[i] + trend[i] + remainder[i] = y[i]` for every index `i`
(exact in exact arithmetic, since the remainder is computed as
`y - seasonal - trend`); analogously, for `MstlParams.fit` the (Box-Cox
transformed, if lambda is set) series equals the sum of all per-period
seasonal components plus trend plus remainder at every index. -/
theorem fit_reconstruction_identity :
    (∀ (y : List ℚ) (n np : ℕ) (p : stl.StlParams) (res : stl.StlResult),
      stl.stl_fit y n np p = .ok res →
      res.seasonal.length = n ∧ res.trend.length = n ∧
        res.remainder.length = n ∧ res.weights.length = n ∧
      ∀ i, i < n →
        res.seasonal.getD i 0 + res.trend.getD i 0 + res.remainder.getD i 0 =
          y.getD i 0) ∧
    (∀ (ops : RealOps) (p : mstl.MstlParams) (series : List ℚ)
        (periods : List ℕ) (res : mstl.MstlResult),
      mstl.MstlParams.fit ops p series periods = .ok res →
      ∀ i, i < series.length →
        (mstl.mstlInput ops p.lambda series).getD i 0 =
          (res.seasonal.map fun s => s.getD i 0).sum + res.trend.getD i 0 +
            res.remainder.getD i 0) := by
  constructor
  · intro y n np p res h
    obtain ⟨hs, ht, hw, hr⟩ := stl.stl_fit_elim y n np p res h
    refine ⟨hs, ht, by rw [hr]; simp, hw, ?_⟩
    intro i hi
    rw [hr, getD_map_range hi]
    ring
  · intro ops p series periods res h
    exact mstl.mstl_fit_identity h

theorem fit_reconstruction_identity_witness :
    (∃ res, stl.stl_fit (List.replicate 4 (0 : ℚ)) 4 2 stl.params = .ok res ∧
      (res.seasonal.length = 4 ∧ res.trend.length = 4 ∧
        res.remainder.length = 4 ∧ res.weights.length = 4 ∧
      ∀ i, i < 4 →
        res.seasonal.getD i 0 + res.trend.getD i 0 + res.remainder.getD i 0 =
          (List.replicate 4 (0 : ℚ)).getD i 0)) ∧
    (∃ res, mstl.MstlParams.fit opsZero mstl.mstl_params
        (List.replicate 12 (0 : ℚ)) [2, 3] = .ok res ∧
      ∀ i, i < (List.replicate 12 (0 : ℚ)).length →
        (mstl.mstlInput opsZero mstl.mstl_params.lambda
            (List.replicate 12 (0 : ℚ))).getD i 0 =
          (res.seasonal.map fun s => s.getD i 0).sum + res.trend.getD i 0 +
            res.remainder.getD i 0) := by
  constructor
  · have hok := stl.stl_fit_isOk (List.replicate 4 (0 : ℚ)) 4 2 stl.params
      (by omega) (Or.inl rfl) (Or.inr rfl) (Or.inr rfl) (Or.inl rfl)
    obtain ⟨res, hres⟩ := isOk_iff_exists.mp hok
    exact ⟨res, hres,
      fit_reconstruction_identity.1 (List.replicate 4 (0 : ℚ)) 4 2 stl.params res hres⟩
  · have hok : (mstl.MstlParams.fit opsZero mstl.mstl_params
        (List.replicate 12 (0 : ℚ)) [2, 3]).isOk = true := mstl.fit_isOk
      rfl rfl (Or.inl rfl) (Or.inr rfl) (Or.inr rfl) (Or.inl rfl) (by simp)
      (by
        intro q hq
        simp only [List.length_replicate]
        rcases List.mem_cons.mp hq with h | h
        · omega
        · rcases List.mem_cons.mp h with h | h
          · omega
          · exact absurd h (List.not_mem_nil q))
    obtain ⟨res, hres⟩ := isOk_iff_exists.mp hok
    exact ⟨res, hres, fit_reconstruction_identity.2 opsZero mstl.mstl_params
      (List.replicate 12 (0 : ℚ)) [2, 3] res hres⟩

/-- C2 counterexample: an explicitly supplied even seasonal window
(`seasonal_length 4`) does not make `fit` raise an invalid-parameter
error — `stl_fit` silently corrects it to the next odd value
(stl.hpp lines 485-488), refuting the claim that every explicitly
supplied even window is rejected. -/
theorem explicit_even_seasonal_accepted :
    (stl.stl_fit (List.replicate 30 (0 : ℚ)) 30 7
      (stl.params.seasonal_length 4)).isOk = true :=
  stl.stl_fit_isOk (List.replicate 30 (0 : ℚ)) 30 7 (stl.params.seasonal_length 4)
    (by omega) (Or.inl rfl) (Or.inr rfl) (Or.inr rfl) (Or.inl rfl)

/-- C2 amended: only an explicitly supplied even low-pass window length is
rejected by `fit` (the `stl` validation sees the unchanged even value and
throws); explicitly supplied even seasonal and trend window lengths are
silently corrected to the next odd value — exactly like auto-derived even
windows — and the fit is accepted. -/
theorem even_window_policy :
    (∀ (y : List ℚ) (n np l : ℕ) (p : stl.StlParams),
      2 * np ≤ n → p.nl = some l → l % 2 = 0 →
      ∃ e, stl.stl_fit y n np p = .error e) ∧
    (∀ (y : List ℚ) (n np a b : ℕ), 2 * np ≤ n →
      (stl.stl_fit y n np
        ((stl.params.seasonal_length (2 * a)).trend_length (2 * b))).isOk = true) := by
  constructor
  · intro y n np l p hn hnl heven
    exact stl.stl_fit_error_badnl y n np l p hn hnl heven
  · intro y n np a b hn
    exact stl.stl_fit_isOk y n np _ hn (Or.inl rfl) (Or.inr rfl) (Or.inr rfl)
      (Or.inl rfl)

theorem even_window_policy_witness :
    (∃ e, stl.stl_fit (List.replicate 30 (0 : ℚ)) 30 7
      (stl.params.low_pass_length 4) = .error e) ∧
    (stl.stl_fit (List.replicate 30 (0 : ℚ)) 30 7
      ((stl.params.seasonal_length 4).trend_length 6)).isOk = true := by
  constructor
  · exact even_window_policy.1 (List.replicate 30 (0 : ℚ)) 30 7 4
      (stl.params.low_pass_length 4) (by omega) rfl rfl
  · exact even_window_policy.2 (List.replicate 30 (0 : ℚ)) 30 7 2 3 (by omega)

/-- C3 counterexample: `StlParams.fit` with period 1 on a series of
length 4 succeeds — the period is clamped to `max(np, 2)` in `stl_fit`
(stl.hpp line 490) before the `period must be at least 2` check of `stl`
can see it — refuting the claim that period 1 raises an error. -/
theorem stl_fit_period_one_accepted :
    (stl.stl_fit [0, 1, 2, 3] 4 1 stl.params).isOk = true :=
  stl.stl_fit_isOk [0, 1, 2, 3] 4 1 stl.params (by omega) (Or.inl rfl)
    (Or.inr rfl) (Or.inr rfl) (Or.inl rfl)

/-- C3 amended: `StlParams.fit` does not reject a period below 2 — with
default parameters and a series of length at least 2 a fit with period 1
succeeds, the period being silently clamped to 2 — while `MstlParams.fit`
does raise an invalid-parameter error whenever any requested period is
below 2, during validation and before any computation (the error is
produced for every interpretation of the transcendental operations). -/
theorem period_validation_policy :
    (∀ (y : List ℚ) (n : ℕ), 2 ≤ n →
      (stl.stl_fit y n 1 stl.params).isOk = true) ∧
    (∀ (ops : RealOps) (p : mstl.MstlParams) (series : List ℚ)
        (periods : List ℕ), (∃ q ∈ periods, q < 2) →
      ∃ e, mstl.MstlParams.fit ops p series periods = .error e) := by
  constructor
  · intro y n hn
    exact stl.stl_fit_isOk y n 1 stl.params (by omega) (Or.inl rfl)
      (Or.inr rfl) (Or.inr rfl) (Or.inl rfl)
  · intro ops p series periods h
    exact mstl.fit_error_of_small_period h

theorem period_validation_policy_witness :
    ((stl.stl_fit [5, 9] 2 1 stl.params).isOk = true) ∧
    (∃ e, mstl.MstlParams.fit opsZero mstl.mstl_params [5, 9, 2, 9] [1] = .error e) := by
  constructor
  · exact period_validation_policy.1 [5, 9] 2 (by omega)
  · exact period_validation_policy.2 opsZero mstl.mstl_params [5, 9, 2, 9] [1]
      ⟨1, by simp, by omega⟩

/-- C4: the STL side does fail fast with the verbatim message
`series has less than two periods` whenever the series is shorter than
twice the period, but `MstlParams::fit` throws a different message,
`series is shorter than twice the period` (mstl.hpp line 168), although
the repository's own test `test_mstl_too_few_periods` asserts the STL
wording for the MSTL fit as well. -/
theorem short_series_message :
    (∀ (y : List ℚ) (n np : ℕ) (p : stl.StlParams), n < 2 * np →
      stl.stl_fit y n np p = .error "series has less than two periods") ∧
    mstl.MstlParams.fit opsZero mstl.mstl_params (List.replicate 30 (0 : ℚ)) [16] =
      .error "series is shorter than twice the period" := by
  constructor
  · intro y n np p h
    exact stl.stl_fit_error_short y n np p h
  · rfl

theorem short_series_message_witness :
    stl.stl_fit [] 0 1 stl.params = .error "series has less than two periods" :=
  short_series_message.1 [] 0 1 stl.params (by omega)

/-- C5: under the default configuration (no explicit per-period seasonal
window lengths), for every series and every pair of period lists that are
permutations of each other, successful `MstlParams.fit` calls produce
identical trend and remainder sequences, and the multiset of
(period, seasonal component) pairs is the same — only the outer ordering
of the seasonal components follows the caller's input order. -/
theorem mstl_order_independent {ops : RealOps} {p : mstl.MstlParams}
    {series : List ℚ} {periods periods' : List ℕ} {ra rb : mstl.MstlResult}
    (hswin : p.swin = none) (hperm : periods.Perm periods')
    (ha : mstl.MstlParams.fit ops p series periods = .ok ra)
    (hb : mstl.MstlParams.fit ops p series periods' = .ok rb) :
    ra.trend = rb.trend ∧ ra.remainder = rb.remainder ∧
    (periods.zip ra.seasonal).Perm (periods'.zip rb.seasonal) :=
  mstl.mstl_fit_perm hswin hperm ha hb

theorem mstl_order_independent_witness :
    ∃ ra rb,
      mstl.MstlParams.fit opsZero mstl.mstl_params
        (List.replicate 12 (0 : ℚ)) [2, 3] = .ok ra ∧
      mstl.MstlParams.fit opsZero mstl.mstl_params
        (List.replicate 12 (0 : ℚ)) [3, 2] = .ok rb ∧
      ra.trend = rb.trend ∧ ra.remainder = rb.remainder ∧
      ([2, 3].zip ra.seasonal).Perm ([3, 2].zip rb.seasonal) := by
  have hq : ∀ q ∈ [2, 3], 2 ≤ q ∧ q * 2 ≤ (List.replicate 12 (0 : ℚ)).length := by
    intro q hq
    simp only [List.length_replicate]
    rcases List.mem_cons.mp hq with h | h
    · omega
    · rcases List.mem_cons.mp h with h | h
      · omega
      · exact absurd h (List.not_mem_nil q)
  have hq2 : ∀ q ∈ [3, 2], 2 ≤ q ∧ q * 2 ≤ (List.replicate 12 (0 : ℚ)).length := by
    intro q hq
    simp only [List.length_replicate]
    rcases List.mem_cons.mp hq with h | h
    · omega
    · rcases List.mem_cons.mp h with h | h
      · omega
      · exact absurd h (List.not_mem_nil q)
  have hokA : (mstl.MstlParams.fit opsZero mstl.mstl_params
      (List.replicate 12 (0 : ℚ)) [2, 3]).isOk = true := mstl.fit_isOk
    rfl rfl (Or.inl rfl) (Or.inr rfl) (Or.inr rfl) (Or.inl rfl) (by simp) hq
  have hokB : (mstl.MstlParams.fit opsZero mstl.mstl_params
      (List.replicate 12 (0 : ℚ)) [3, 2]).isOk = true := mstl.fit_isOk
    rfl rfl (Or.inl rfl) (Or.inr rfl) (Or.inr rfl) (Or.inl rfl) (by simp) hq2
  obtain ⟨ra, hra⟩ := isOk_iff_exists.mp hokA
  obtain ⟨rb, hrb⟩ := isOk_iff_exists.mp hokB
  exact ⟨ra, rb, hra, hrb,
    mstl_order_independent rfl (List.Perm.swap 3 2 []) hra hrb⟩

/-- C6: `rwts` agrees pointwise with the specification formula — absolute
residuals, `cmad` equal to six times the median absolute residual taken as
the average of the two middle order statistics, weight 1 below
`0.001 * cmad`, the bisquare `(1 - (r/cmad)^2)^2` up to `0.999 * cmad`,
and 0 above — every returned weight lies in [0, 1], and the result is a
fresh list (neither `y` nor `fit` is part of the state, so neither is
mutated). -/
theorem rwts_matches_spec :
    ∀ (y : List ℚ) (n : ℕ) (fit : List ℚ),
      stl.rwts y n fit = stl.rwtsSpec y n fit ∧
      ∀ w ∈ stl.rwts y n fit, 0 ≤ w ∧ w ≤ 1 :=
  fun y n fit => ⟨stl.rwts_eq_spec y n fit, stl.rwts_mem_bounds y n fit⟩

theorem rwts_matches_spec_witness :
    stl.rwts [0, 10] 2 [0, 0] = stl.rwtsSpec [0, 10] 2 [0, 0] ∧
    (0 ≤ (stl.rwts [0, 10] 2 [0, 0]).getD 0 0 ∧
      (stl.rwts [0, 10] 2 [0, 0]).getD 0 0 ≤ 1) := by
  refine ⟨(rwts_matches_spec [0, 10] 2 [0, 0]).1, ?_⟩
  have h2 : 0 < (stl.rwts [0, 10] 2 [0, 0]).length := by
    rw [stl.rwts_length]
    omega
  have hmem : (stl.rwts [0, 10] 2 [0, 0]).getD 0 0 ∈ stl.rwts [0, 10] 2 [0, 0] := by
    rw [List.getD_eq_getElem _ _ h2]
    exact List.getElem_mem h2
  exact (rwts_matches_spec [0, 10] 2 [0, 0]).2 _ hmem

/-- C7: every successful `stl` run has the outer-loop structure of the
specification — the inner loop is `ni` iterations of the one-step body,
the whole computation is one initial unweighted pass followed by exactly
`no` robust passes (so `no + 1` total passes), each robust pass
recomputing the robustness weights with `rwts` from the current
`trend + season` fit before running the next weighted pass — and when
`no = 0` the returned weights are uniformly 1 regardless of any computed
values. -/
theorem outer_loop_structure {y : List ℚ} {n np ns nt nl : ℕ}
    {isdeg itdeg ildeg : ℤ} {nsjump ntjump nljump ni no : ℕ}
    {t : List ℚ × List ℚ × List ℚ}
    (h : stl.stl y n np ns nt nl isdeg itdeg ildeg nsjump ntjump nljump ni no =
      .ok t) :
    (∀ (userw : Bool) (rw : List ℚ) (st : List ℚ × List ℚ),
      stl.onestp y n np ns nt nl isdeg itdeg ildeg nsjump ntjump nljump ni
          userw rw st =
        (stl.onestpBody y n np ns nt nl isdeg itdeg ildeg nsjump ntjump nljump
          userw rw [])^[ni] st) ∧
    t = (let st := (stl.stlRobustPass y n np ns nt nl isdeg itdeg ildeg
            nsjump ntjump nljump ni)^[no]
          (stl.stlPassWith y n np ns nt nl isdeg itdeg ildeg nsjump ntjump nljump
            ni false (List.replicate n (0 : ℚ), List.replicate n (0 : ℚ),
              List.replicate n (0 : ℚ)));
        (if no = 0 then List.replicate n (1 : ℚ) else st.1, st.2.1, st.2.2)) ∧
    (no = 0 → t.1 = List.replicate n (1 : ℚ)) := by
  have ht := stl.stl_eq_ok h
  refine ⟨fun _ _ _ => rfl, ?_, ?_⟩
  · rw [ht]
    unfold stl.stlCore
    rw [stl.stlOuter_eq_iterate]
  · intro h0
    rw [ht]
    unfold stl.stlCore
    dsimp only
    rw [if_pos h0]

theorem outer_loop_structure_witness :
    ∃ t, stl.stl [0, 1, 2, 3] 4 2 3 3 3 0 1 1 1 1 1 2 0 = .ok t ∧
      t = (let st := (stl.stlRobustPass [0, 1, 2, 3] 4 2 3 3 3 0 1 1 1 1 1 2)^[0]
            (stl.stlPassWith [0, 1, 2, 3] 4 2 3 3 3 0 1 1 1 1 1 2
              false (List.replicate 4 (0 : ℚ), List.replicate 4 (0 : ℚ),
                List.replicate 4 (0 : ℚ)));
          (if (0 : ℕ) = 0 then List.replicate 4 (1 : ℚ) else st.1,
            st.2.1, st.2.2)) ∧
      t.1 = List.replicate 4 (1 : ℚ) := by
  have h : stl.stl [0, 1, 2, 3] 4 2 3 3 3 0 1 1 1 1 1 2 0 =
      .ok (stl.stlCore [0, 1, 2, 3] 4 2 3 3 3 0 1 1 1 1 1 2 0) :=
    stl.stl_ok [0, 1, 2, 3] 4 2 3 3 3 0 1 1 1 1 1 2 0 (by omega) (by omega)
      (by omega) (by omega) (Or.inl rfl) (Or.inr rfl) (Or.inr rfl)
      (by omega) (by omega) (by omega)
  have hs := outer_loop_structure h
  exact ⟨_, h, hs.2.1, hs.2.2 rfl⟩

/-- C8 counterexample: with component and remainder both `[0, 0, 0, 0]`
(as a constant series' decomposition yields) the remainder variance is 0,
but the variance of `component + remainder` is 0 as well, so the source
divides `0.0` by `0.0`, gets `NaN`, and `std::max(0.0, NaN)` returns `0.0`
— strength 0, not 1, refuting the zero-remainder-variance clause. -/
theorem strength_zero_variance_collapse :
    stl.var [(0 : ℚ), 0, 0, 0] = 0 ∧
    stl.strength [0, 0, 0, 0] [(0 : ℚ), 0, 0, 0] = 0 := by
  have hsr : stl.var ((List.range ([(0 : ℚ), 0, 0, 0].length)).map fun i =>
      [(0 : ℚ), 0, 0, 0].getD i 0 + [(0 : ℚ), 0, 0, 0].getD i 0) = 0 := by
    norm_num [stl.var, List.range_succ]
  refine ⟨by norm_num [stl.var], ?_⟩
  unfold stl.strength
  dsimp only
  rw [if_pos hsr]

/-- C8 amended: with `var` the sample variance `Σ(x - mean)² / (count - 1)`
(exact for sizes at least 2, where the source's division is by a nonzero
count), `strength` equals `max 0 (1 - var remainder / var (component +
remainder))` whenever the denominator variance is nonzero; the result
always lies in `[0, 1]`; a zero remainder variance gives strength exactly 1
only when the variance of `component + remainder` is nonzero; and when that
denominator variance is zero the float path (`NaN` or `-inf` fed to
`std::max(0.0, ·)`) makes the source return 0, which the model mirrors. -/
theorem strength_properties (component remainder : List ℚ) :
    (∀ s : List ℚ, 2 ≤ s.length → stl.var s =
      ((s.map fun v => (v - s.sum / (s.length : ℚ)) ^ 2).sum) /
        ((s.length - 1 : ℕ) : ℚ)) ∧
    (stl.var ((List.range remainder.length).map fun i =>
        component.getD i 0 + remainder.getD i 0) ≠ 0 →
      stl.strength component remainder =
        max 0 (1 - stl.var remainder /
          stl.var ((List.range remainder.length).map fun i =>
            component.getD i 0 + remainder.getD i 0))) ∧
    0 ≤ stl.strength component remainder ∧
    stl.strength component remainder ≤ 1 ∧
    (stl.var remainder = 0 →
      stl.var ((List.range remainder.length).map fun i =>
        component.getD i 0 + remainder.getD i 0) ≠ 0 →
      stl.strength component remainder = 1) ∧
    (stl.var ((List.range remainder.length).map fun i =>
        component.getD i 0 + remainder.getD i 0) = 0 →
      stl.strength component remainder = 0) := by
  refine ⟨fun s h => rfl, ?_, ?_, ?_, ?_, ?_⟩
  · intro hne
    unfold stl.strength
    dsimp only
    rw [if_neg hne]
  · unfold stl.strength
    dsimp only
    split
    · exact le_refl 0
    · exact le_max_left 0 _
  · unfold stl.strength
    dsimp only
    split
    · norm_num
    · apply max_le (by norm_num)
      have hd : 0 ≤ stl.var remainder /
          stl.var ((List.range remainder.length).map fun i =>
            component.getD i 0 + remainder.getD i 0) :=
        div_nonneg (stl.var_nonneg _) (stl.var_nonneg _)
      linarith
  · intro h0 hne
    unfold stl.strength
    dsimp only
    rw [if_neg hne, h0, zero_div, sub_zero]
    norm_num
  · intro hz
    unfold stl.strength
    dsimp only
    rw [if_pos hz]

theorem strength_properties_witness :
    stl.var [(3 : ℚ), 3] = 0 ∧ stl.strength [1, 2] [(3 : ℚ), 3] = 1 := by
  have hv : stl.var [(3 : ℚ), 3] = 0 := by
    norm_num [stl.var]
  have hne : stl.var ((List.range ([(3 : ℚ), 3].length)).map fun i =>
      [(1 : ℚ), 2].getD i 0 + [(3 : ℚ), 3].getD i 0) ≠ 0 := by
    norm_num [stl.var, List.range_succ]
  exact ⟨hv, (strength_properties [1, 2] [(3 : ℚ), 3]).2.2.2.2.1 hv hne⟩

/-- C9: a loess smoothing with the weight flag off is independent of
the weight vector, and consequently the inner-loop body equals the
expression in which the seasonal sub-series smoothing and the trend
smoothing receive the pass's weight flag and robustness weights while
the low-pass smoothing of the filtered seasonal runs unweighted with an
empty weight vector — for every weight flag, so also in robust mode. -/
theorem low_pass_unweighted (y : List ℚ) (n np ns nt nl : ℕ)
    (isdeg itdeg ildeg : ℤ) (nsjump ntjump nljump : ℕ) (userw : Bool)
    (rw lowrw : List ℚ) (st : List ℚ × List ℚ) :
    (∀ (z : List ℚ) (m len : ℕ) (ideg : ℤ) (njump : ℕ) (rw1 rw2 : List ℚ),
      stl.ess z m len ideg njump false rw1 = stl.ess z m len ideg njump false rw2) ∧
    stl.onestpBody y n np ns nt nl isdeg itdeg ildeg nsjump ntjump nljump
        userw rw lowrw st =
      (let work1 := (List.range n).map fun i => y.getD i 0 - st.2.getD i 0
       let work2 := stl.ss work1 n np ns isdeg nsjump userw rw
       let work3 := stl.fts work2 (n + 2 * np) np
       let lp := stl.ess work3 n nl ildeg nljump false []
       let season := (List.range n).map fun i =>
         work2.getD (np + i) 0 - lp.getD i 0
       let work1b := (List.range n).map fun i => y.getD i 0 - season.getD i 0
       (season, stl.ess work1b n nt itdeg ntjump userw rw)) := by
  refine ⟨stl.ess_false, ?_⟩
  unfold stl.onestpBody
  dsimp only
  rw [stl.ess_false_nil _ _ _ _ _ lowrw]

theorem foldl_snoc_length {α : Type} (f h : List ℚ × ℚ → α → ℚ) :
    ∀ (l : List α) (init : List ℚ × ℚ),
    ((l.foldl (fun st j => (st.1 ++ [f st j], h st j)) init).1).length =
      init.1.length + l.length := by
  intro l
  induction l with
  | nil => intro init; simp
  | cons a t ih =>
    intro init
    rw [List.foldl_cons, ih]
    simp
    omega

theorem ma_length (x : List ℚ) (n len : ℕ) :
    (stl.ma x n len).length = n - len + 1 := by
  unfold stl.ma
  dsimp only
  rw [foldl_snoc_length
    (fun st j => (st.2 - x.getD (j - 1) 0 + x.getD (len + j - 1) 0) / (len : ℚ))
    (fun st j => st.2 - x.getD (j - 1) 0 + x.getD (len + j - 1) 0)]
  simp only [List.length_range', List.length_cons, List.length_nil]
  omega

theorem ss_length (y : List ℚ) (n np ns : ℕ) (isdeg : ℤ) (nsjump : ℕ)
    (userw : Bool) (rw : List ℚ) :
    (stl.ss y n np ns isdeg nsjump userw rw).length = n + 2 * np := by
  unfold stl.ss
  refine foldl_pres (fun s : List ℚ => s.length = n + 2 * np) _ _ _ ?_ (by simp)
  intro s a hs
  dsimp only
  refine foldl_pres (fun s2 : List ℚ => s2.length = n + 2 * np) _ _ _ ?_ hs
  intro s2 m hs2
  rw [List.length_set]
  exact hs2

/-- C10: under the validated preconditions (period at least 2 and series
length at least twice the period), the seasonal sub-series smoother's
output buffer has exactly `n + 2 * np` entries and every write index
`(m - 1) * np + j - 1` (phase `j` in `1..np`, position `m` in `1..k+2`
with `k = (n - j) / np + 1`) is strictly below `n + 2 * np`; each moving
average over a window of `len` on a declared input length of `N` returns
`N - len + 1` values; and in the low-pass filter applied to the
`n + 2 * np` seasonal buffer every moving-average call has window length
at least 2 and at most its declared input length, so the length
computation `N - len + 1` never underflows. -/
theorem scratch_access_safety (n np : ℕ) (hnp : 2 ≤ np) (hn : 2 * np ≤ n) :
    (∀ (y : List ℚ) (ns : ℕ) (isdeg : ℤ) (nsjump : ℕ) (userw : Bool)
        (rw : List ℚ),
      (stl.ss y n np ns isdeg nsjump userw rw).length = n + 2 * np) ∧
    (∀ j, 1 ≤ j → j ≤ np → ∀ m, 1 ≤ m → m ≤ stl.ssK n np j + 2 →
      (m - 1) * np + j - 1 < n + 2 * np) ∧
    (∀ (x : List ℚ) (N len : ℕ), (stl.ma x N len).length = N - len + 1) ∧
    (∀ pr ∈ stl.ftsMaCalls (n + 2 * np) np, 2 ≤ pr.2 ∧ pr.2 ≤ pr.1) := by
  refine ⟨fun y ns isdeg nsjump userw rw => ss_length y n np ns isdeg nsjump userw rw,
    ?_, fun x N len => ma_length x N len, ?_⟩
  · intro j hj1 hj2 m hm1 hm2
    unfold stl.ssK at hm2
    generalize hq : (n - j) / np = q at hm2
    have hqle : q * np ≤ n - j := hq ▸ Nat.div_mul_le_self (n - j) np
    have h2 : (m - 1) * np ≤ (q + 2) * np :=
      Nat.mul_le_mul (by omega) (le_refl np)
    have h3 : (q + 2) * np = q * np + 2 * np := by ring
    have h4 : (m - 1) * np ≤ (n - j) + 2 * np := by
      calc (m - 1) * np ≤ (q + 2) * np := h2
        _ = q * np + 2 * np := h3
        _ ≤ (n - j) + 2 * np := Nat.add_le_add_right hqle (2 * np)
    have hjn : j ≤ n := by omega
    have h5 : (m - 1) * np + j ≤ n + 2 * np := by
      calc (m - 1) * np + j ≤ ((n - j) + 2 * np) + j := Nat.add_le_add_right h4 j
        _ = n + 2 * np := by omega
    omega
  · intro pr hpr
    unfold stl.ftsMaCalls at hpr
    rcases List.mem_cons.mp hpr with h | h
    · subst h
      exact ⟨hnp, by omega⟩
    · rcases List.mem_cons.mp h with h | h
      · subst h
        exact ⟨hnp, by omega⟩
      · rcases List.mem_cons.mp h with h | h
        · subst h
          exact ⟨by omega, by omega⟩
        · exact absurd h (List.not_mem_nil pr)

theorem scratch_access_safety_witness :
    (stl.ss [] 4 2 7 0 1 false []).length = 4 + 2 * 2 ∧
    (1 - 1) * 2 + 1 - 1 < 4 + 2 * 2 ∧
    (stl.ma [] 8 2).length = 8 - 2 + 1 ∧
    ∀ pr ∈ stl.ftsMaCalls (4 + 2 * 2) 2, 2 ≤ pr.2 ∧ pr.2 ≤ pr.1 := by
  have h := scratch_access_safety 4 2 (by omega) (by omega)
  exact ⟨h.1 [] 7 0 1 false [], h.2.1 1 (by omega) (by omega) 1 (by omega)
    (by omega), h.2.2.1 [] 8 2, h.2.2.2⟩
